import Mathlib

/-!
# bro: the bounded walker and the copier pool

A shallow embedding of `concurrent/concurrent.go` and of the staging loop of
`commands.Add`, with the properties of the specification stated over it.

Goroutines are modelled by an interleaving semantics: a state holds the
program counter of every live goroutine, and `step s i` lets thread `i`
execute its next atomic action (`none` when that thread is blocked or does
not exist).  Every channel operation, every `sync.WaitGroup` operation and
every call into `os`, `io` or `sync.Map` is one atomic action.

Paths of the `concurrent` package are modelled by the list of their
components (what `filepath.Clean` normalises): `filepath.Join(dir, name)`
appends a component and `filepath.Dir` drops the last one.  The string level
(`strings.HasPrefix`, `strings.TrimPrefix`) is modelled separately for `Add`.
-/

namespace Bro

/-! ## Paths and the directory tree seen by `filepath.Walk` -/

/-- A cleaned path: the list of its components. -/
abbrev Path := List String

/-- The path `filepath.Join(dir, name)` of the entry `name` of `dir`. -/
def child (dir : Path) (name : String) : Path := dir ++ [name]

/-- The type bits of `os.FileMode` for an entry that is not a directory. -/
inductive FileKind
  | regular
  | symlink
  | device
  | socket
  | namedPipe
  deriving DecidableEq, Repr

/-- What `os.Lstat` and `readDirNames` report below one path.  A directory
carries whether `readDirNames` succeeds on it and its entries in the order
`readDirNames` returns them; an entry `none` is one on which `os.Lstat`
fails.  The tree does not change during a walk. -/
inductive Node where
  | file (kind : FileKind)
  | dir (readable : Bool) (entries : List (String × Option Node))

/-- One pending visit of `filepath.Walk`: the path and what `os.Lstat` finds
there (`none`: the call fails). -/
abbrev Item := Path × Option Node

/-- Result of `f.IsDir()` on the `os.FileInfo` handed to the callback (`false`
for the nil info of a failed `os.Lstat`, which the callback never inspects). -/
def isDirOf : Option Node → Bool
  | some (.dir _ _) => true
  | _ => false

/-- Whether `filepath.Walk` hands a non-nil `err` to the callback for this
item: `os.Lstat` failed, or the item is a directory whose names cannot be
read.  As in the `path/filepath` of the current Go release, the names of a
directory are read before the callback is called for it, so that the callback
is called once per item. -/
def errOf : Option Node → Bool
  | none => true
  | some (.file _) => false
  | some (.dir readable _) => !readable

/-- The entries `filepath.Walk` goes on to visit below an item once the
callback has returned nil for it: those of a readable directory, with their
joined paths. -/
def entriesOf (p : Path) : Option Node → List Item
  | some (.dir true es) => es.map (fun e => (child p e.1, e.2))
  | _ => []

/-! ## `sync.Map` -/

/-- The collector: the key/value pairs of a `sync.Map`. -/
abbrev SyncMap := List (Path × Path)

/-- The call `m.Store(k, v)`: sets the value of key `k`. -/
def Store (m : SyncMap) (k v : Path) : SyncMap :=
  (k, v) :: m.filter (fun e => !(e.1 == k))

/-- The keys of the collector. -/
def keys (m : SyncMap) : List Path := m.map Prod.fst

/-! ## The walker -/

/-- CWalker: `pool` is the number of permits in the buffered channel, `cap`
the capacity the channel was made with, `wg` the counter of the WaitGroup. -/
structure CWalker where
  pool : Nat
  cap : Nat
  wg : Int

/-- NewCWalker: coerce `n` to at least 1, make a channel of that capacity and
fill it. -/
def NewCWalker (n : Int) : CWalker :=
  let n := if n < 1 then 1 else n
  { pool := n.toNat, cap := n.toNat, wg := 0 }

/-- The four `return` statements of the function literal that `walk` hands to
`filepath.Walk`, with the side effect that precedes each. -/
inductive Act
  | fail
  | spawn
  | store
  | pass
  deriving DecidableEq, Repr

/-- The function literal of `walk`: `fail` is `return err`, `spawn` is
`w.wg.Add(1); go w.walk(path, m); return filepath.SkipDir`, `store` is
`m.Store(path, path); return nil` and `pass` is the bare `return nil`. -/
def walkFn (root path : Path) (isDir err : Bool) : Act :=
  if err then .fail
  else if isDir && path != root then .spawn
  else if !isDir then .store
  else .pass

/-- The frames `filepath.Walk` is left with after the callback returned nil
for the item `(p, x)`: it descends into the entries of `x`. -/
def afterNil (p : Path) (x : Option Node) (fr : List Item) (st : List (List Item)) :
    List (List Item) :=
  entriesOf p x :: fr :: st

/-- The frames `filepath.Walk` is left with after the callback returned
`filepath.SkipDir` for an item: a directory is not entered; for an entry that
is not a directory the rest of the containing directory is skipped. -/
def afterSkipDir (x : Option Node) (fr : List Item) (st : List (List Item)) :
    List (List Item) :=
  match x with
  | some (.file _) => st
  | _ => fr :: st

/-- Program counter of one goroutine running `w.walk(root, m)`. -/
inductive Task where
  /-- blocked on, or about to execute, `<-w.pool` -/
  | waiting (root : Path) (x : Option Node)
  /-- inside `filepath.Walk(root, ...)`: the stack of directories being
  listed, each with its entries still to visit -/
  | walking (root : Path) (stack : List (List Item))
  /-- inside the callback, after `w.wg.Add(1)` and before `go w.walk(path, m)` -/
  | spawning (root : Path) (path : Path) (x : Option Node) (cont : List (List Item))
  /-- `filepath.Walk` has returned; about to execute `w.pool <- struct{}{}` -/
  | releasing
  /-- about to run the deferred `w.wg.Done()` -/
  | exiting

/-- Program counter of the goroutine that called WalkAndCollect. -/
inductive MainPc
  | entry
  | added
  | waiting
  | returned
  deriving DecidableEq, Repr

/-- State of one call `w.WalkAndCollect(root, m)`. -/
structure WalkState where
  w : CWalker
  m : SyncMap
  tasks : List Task
  main : MainPc
  root : Path
  fs : Option Node

/-- The method WalkAndCollect, one action of its caller: `w.wg.Add(1)`, then
`go w.walk(root, m)`, then `w.wg.Wait()`, which returns once the counter is
zero. -/
def WalkAndCollect (s : WalkState) : Option WalkState :=
  match s.main with
  | .entry => some { s with w := { s.w with wg := s.w.wg + 1 }, main := .added }
  | .added => some { s with tasks := s.tasks ++ [.waiting s.root s.fs], main := .waiting }
  | .waiting => if s.w.wg = 0 then some { s with main := .returned } else none
  | .returned => none

/-- The method `walk`, one action of the goroutine at position `i`. -/
def walk (s : WalkState) (i : Nat) : Option WalkState :=
  match s.tasks.drop i with
  | [] => none
  | t :: post =>
    let pre := s.tasks.take i
    match t with
    | .waiting r x =>
      if s.w.pool = 0 then none
      else some { s with w := { s.w with pool := s.w.pool - 1 },
                         tasks := pre ++ .walking r [[(r, x)]] :: post }
    | .walking _ [] => some { s with tasks := pre ++ .releasing :: post }
    | .walking r ([] :: st) => some { s with tasks := pre ++ .walking r st :: post }
    | .walking r (((p, x) :: fr) :: st) =>
      match walkFn r p (isDirOf x) (errOf x) with
      | .fail => some { s with tasks := pre ++ .releasing :: post }
      | .spawn =>
        some { s with w := { s.w with wg := s.w.wg + 1 },
                      tasks := pre ++ .spawning r p x (afterSkipDir x fr st) :: post }
      | .store =>
        some { s with m := Store s.m p p,
                      tasks := pre ++ .walking r (afterNil p x fr st) :: post }
      | .pass => some { s with tasks := pre ++ .walking r (afterNil p x fr st) :: post }
    | .spawning r p x cont =>
      some { s with tasks := pre ++ .walking r cont :: post ++ [.waiting p x] }
    | .releasing =>
      if s.w.pool < s.w.cap then
        some { s with w := { s.w with pool := s.w.pool + 1 }, tasks := pre ++ .exiting :: post }
      else none
    | .exiting => some { s with w := { s.w with wg := s.w.wg - 1 }, tasks := pre ++ post }

/-- One action of thread `i`: thread 0 is the caller of WalkAndCollect, thread
`k + 1` the goroutine at position `k`. -/
def step (s : WalkState) : Nat → Option WalkState
  | 0 => WalkAndCollect s
  | k + 1 => walk s k

/-- The state in which `NewCWalker(n).WalkAndCollect(root, m)` is entered with
an empty `m`. -/
def walkInit (n : Int) (root : Path) (fs : Option Node) : WalkState :=
  { w := NewCWalker n, m := [], tasks := [], main := .entry, root := root, fs := fs }

/-- Runs a schedule: the list of the threads that are given a turn, in order; a
thread that is blocked when its turn comes does nothing. -/
def run (s : WalkState) : List Nat → WalkState
  | [] => s
  | i :: rest =>
    match step s i with
    | some s' => run s' rest
    | none => run s rest

/-- The states a walk can be in. -/
inductive Reachable (s0 : WalkState) : WalkState → Prop
  | start : Reachable s0 s0
  | next {s s' : WalkState} (i : Nat) : Reachable s0 s → step s i = some s' → Reachable s0 s'

/-- A scheduler that always runs the first listed goroutine that can act,
and the caller when none can; used to produce concrete runs. -/
def firstEnabled (s : WalkState) : Nat → Nat → Nat
  | 0, _ => 0
  | fuel + 1, k => if (walk s k).isSome then k + 1 else firstEnabled s fuel (k + 1)

/-- Runs the walk for at most `fuel` actions under `firstEnabled`. -/
def runFirst : Nat → WalkState → WalkState
  | 0, s => s
  | fuel + 1, s =>
    match step s (firstEnabled s s.tasks.length 0) with
    | some s' => runFirst fuel s'
    | none => s

/-! ## Proof devices for the walker -/

/-- The actions of `step`, as a relation (used to reason by cases). -/
inductive Step : WalkState → WalkState → Prop
  | add (s : WalkState) : s.main = .entry →
      Step s { s with w := { s.w with wg := s.w.wg + 1 }, main := .added }
  | go (s : WalkState) : s.main = .added →
      Step s { s with tasks := s.tasks ++ [.waiting s.root s.fs], main := .waiting }
  | ret (s : WalkState) : s.main = .waiting → s.w.wg = 0 →
      Step s { s with main := .returned }
  | acquire (s : WalkState) (pre post : List Task) (r : Path) (x : Option Node) :
      s.tasks = pre ++ .waiting r x :: post → s.w.pool ≠ 0 →
      Step s { s with w := { s.w with pool := s.w.pool - 1 },
                      tasks := pre ++ .walking r [[(r, x)]] :: post }
  | walked (s : WalkState) (pre post : List Task) (r : Path) :
      s.tasks = pre ++ .walking r [] :: post →
      Step s { s with tasks := pre ++ .releasing :: post }
  | pop (s : WalkState) (pre post : List Task) (r : Path) (st : List (List Item)) :
      s.tasks = pre ++ .walking r ([] :: st) :: post →
      Step s { s with tasks := pre ++ .walking r st :: post }
  | fail (s : WalkState) (pre post : List Task) (r p : Path) (x : Option Node)
      (fr : List Item) (st : List (List Item)) :
      s.tasks = pre ++ .walking r (((p, x) :: fr) :: st) :: post →
      walkFn r p (isDirOf x) (errOf x) = .fail →
      Step s { s with tasks := pre ++ .releasing :: post }
  | spawn (s : WalkState) (pre post : List Task) (r p : Path) (x : Option Node)
      (fr : List Item) (st : List (List Item)) :
      s.tasks = pre ++ .walking r (((p, x) :: fr) :: st) :: post →
      walkFn r p (isDirOf x) (errOf x) = .spawn →
      Step s { s with w := { s.w with wg := s.w.wg + 1 },
                      tasks := pre ++ .spawning r p x (afterSkipDir x fr st) :: post }
  | store (s : WalkState) (pre post : List Task) (r p : Path) (x : Option Node)
      (fr : List Item) (st : List (List Item)) :
      s.tasks = pre ++ .walking r (((p, x) :: fr) :: st) :: post →
      walkFn r p (isDirOf x) (errOf x) = .store →
      Step s { s with m := Store s.m p p,
                      tasks := pre ++ .walking r (afterNil p x fr st) :: post }
  | pass (s : WalkState) (pre post : List Task) (r p : Path) (x : Option Node)
      (fr : List Item) (st : List (List Item)) :
      s.tasks = pre ++ .walking r (((p, x) :: fr) :: st) :: post →
      walkFn r p (isDirOf x) (errOf x) = .pass →
      Step s { s with tasks := pre ++ .walking r (afterNil p x fr st) :: post }
  | fork (s : WalkState) (pre post : List Task) (r p : Path) (x : Option Node)
      (cont : List (List Item)) :
      s.tasks = pre ++ .spawning r p x cont :: post →
      Step s { s with tasks := pre ++ .walking r cont :: post ++ [.waiting p x] }
  | release (s : WalkState) (pre post : List Task) :
      s.tasks = pre ++ .releasing :: post → s.w.pool < s.w.cap →
      Step s { s with w := { s.w with pool := s.w.pool + 1 },
                      tasks := pre ++ .exiting :: post }
  | done (s : WalkState) (pre post : List Task) :
      s.tasks = pre ++ .exiting :: post →
      Step s { s with w := { s.w with wg := s.w.wg - 1 }, tasks := pre ++ post }

/-- Whether a goroutine holds a permit: from after `<-w.pool` until
`w.pool <- struct{}{}`. -/
def holds : Task → Nat
  | .walking _ _ => 1
  | .spawning _ _ _ _ => 1
  | .releasing => 1
  | _ => 0

/-- Number of goroutines that hold a permit. -/
def holders (s : WalkState) : Nat := (s.tasks.map holds).sum

/-- Counts an `Add(1)` whose goroutine has not been created yet. -/
def adds : Task → Nat
  | .spawning _ _ _ _ => 1
  | _ => 0

/-- The `Add(1)` of WalkAndCollect itself, before its `go` statement. -/
def mainAdds : MainPc → Nat
  | .added => 1
  | _ => 0

/-- The counting invariants of a walk started by `NewCWalker(n)`. -/
structure CountInv (n : Int) (s : WalkState) : Prop where
  cap : s.w.cap = (max n 1).toNat
  permits : holders s + s.w.pool = s.w.cap
  counter : s.w.wg = ((s.tasks.length + (s.tasks.map adds).sum + mainAdds s.main : Nat) : Int)
  early : s.main = .entry ∨ s.main = .added → s.tasks = []
  late : s.main = .returned → s.tasks = []

/-! ## What a walk is to collect -/

mutual
/-- The paths collected by the scan that `walk(p, m)` makes of `p`: `p` itself
when it is not a directory, what is collected from its entries when it is a
readable directory. -/
def collectNode (p : Path) : Node → List Path
  | .file _ => [p]
  | .dir false _ => []
  | .dir true es => collectEntries p es
/-- The paths collected from the entries `es` of directory `d`: the scan stops
at the first entry that reports an error; an entry before it contributes its
path when it is not a directory and what its own scan collects when it is. -/
def collectEntries (d : Path) : List (String × Option Node) → List Path
  | [] => []
  | (_, none) :: _ => []
  | (n, some x) :: rest =>
    if errOf (some x) then [] else collectNode (child d n) x ++ collectEntries d rest
end

/-- The paths collected by `walk(root, m)` when `os.Lstat(root)` finds `x`. -/
def collectRoot (root : Path) : Option Node → List Path
  | none => []
  | some x => collectNode root x

/-- The paths still to be collected on behalf of the pending visits of one
`filepath.Walk`. -/
def pendItems : List Item → List Path
  | [] => []
  | (p, x) :: rest => if errOf x then [] else collectRoot p x ++ pendItems rest

/-- The paths still to be collected on behalf of a goroutine. -/
def pend : Task → List Path
  | .waiting r x => collectRoot r x
  | .walking _ st => pendItems st.flatten
  | .spawning _ p x cont => collectRoot p x ++ pendItems cont.flatten
  | .releasing => []
  | .exiting => []

/-- The paths still to be collected before the first goroutine exists. -/
def pendMain (s : WalkState) : List Path :=
  match s.main with
  | .entry => collectRoot s.root s.fs
  | .added => collectRoot s.root s.fs
  | _ => []

/-- A walk visits its root first and only entries other than its root after. -/
def wfTask : Task → Prop
  | .walking r st => (∃ x, st = [[(r, x)]]) ∨ ∀ it ∈ st.flatten, it.1 ≠ r
  | .spawning r _ _ cont => ∀ it ∈ cont.flatten, it.1 ≠ r
  | _ => True

/-- The invariant that ties the collector to the tree. -/
structure ContentInv (root : Path) (fs : Option Node) (s : WalkState) : Prop where
  root_eq : s.root = root
  fs_eq : s.fs = fs
  wf : ∀ t ∈ s.tasks, wfTask t
  mem : ∀ q, q ∈ collectRoot root fs ↔
    (q ∈ keys s.m ∨ q ∈ pendMain s ∨ q ∈ s.tasks.flatMap pend)
  nodup : (keys s.m).Nodup
  self : ∀ e ∈ s.m, e.2 = e.1

/-! ## Sets of paths of a tree -/

mutual
/-- The paths, at and below `p`, of the entries that satisfy `f`. -/
def filterNode (f : Node → Bool) (p : Path) : Node → List Path
  | .file k => if f (.file k) then [p] else []
  | .dir r es => (if f (.dir r es) then [p] else []) ++ filterEntries f p es
/-- The paths, below directory `d` with entries `es`, of the entries that
satisfy `f`. -/
def filterEntries (f : Node → Bool) (d : Path) : List (String × Option Node) → List Path
  | [] => []
  | (_, none) :: rest => filterEntries f d rest
  | (n, some x) :: rest => filterNode f (child d n) x ++ filterEntries f d rest
end

/-- The paths of the entries of the tree at `root` that satisfy `f`. -/
def entryPaths (f : Node → Bool) (root : Path) : Option Node → List Path
  | none => []
  | some x => filterNode f root x

/-- Method `IsDir` of `os.FileInfo`. -/
def Node.IsDir : Node → Bool
  | .dir _ _ => true
  | .file _ => false

/-- Method `Mode().IsRegular()` of `os.FileInfo`. -/
def Node.IsRegular : Node → Bool
  | .file .regular => true
  | _ => false

/-- The paths of the regular files reachable from `root`. -/
def regularPaths (root : Path) (fs : Option Node) : List Path :=
  entryPaths Node.IsRegular root fs

/-- The paths of the entries reachable from `root` that are not directories. -/
def nonDirPaths (root : Path) (fs : Option Node) : List Path :=
  entryPaths (fun x => !x.IsDir) root fs

/-- The paths of the directories reachable from `root`, `root` included. -/
def dirPaths (root : Path) (fs : Option Node) : List Path :=
  entryPaths Node.IsDir root fs

mutual
/-- No enumeration error at or below a node: every directory can be read and
`os.Lstat` succeeds on every entry. -/
def okNode : Node → Bool
  | .file _ => true
  | .dir r es => r && okEntries es
/-- No enumeration error among the entries `es` or below them. -/
def okEntries : List (String × Option Node) → Bool
  | [] => true
  | (_, none) :: _ => false
  | (_, some x) :: rest => okNode x && okEntries rest
end

/-- A tree whose enumeration raises no error. -/
def errorFree : Option Node → Bool
  | none => false
  | some x => okNode x

mutual
/-- The names of the entries of every directory are pairwise distinct. -/
def uniqueNode : Node → Bool
  | .file _ => true
  | .dir _ es => uniqueEntries es
/-- The names of `es` are pairwise distinct, and so below every entry. -/
def uniqueEntries : List (String × Option Node) → Bool
  | [] => true
  | (n, none) :: rest => !(rest.map Prod.fst).contains n && uniqueEntries rest
  | (n, some x) :: rest =>
    !(rest.map Prod.fst).contains n && uniqueNode x && uniqueEntries rest
end

/-- A tree in which a path names one entry. -/
def uniqueNames : Option Node → Bool
  | none => true
  | some x => uniqueNode x

/-! ## A bound on the number of actions left -/

mutual
/-- Actions left for the walk whose root is this node, permit held. -/
def costNode : Node → Nat
  | .file _ => 2
  | .dir _ es => 2 + costEntries es
/-- Actions left on behalf of the entries of a directory being listed. -/
def costEntries : List (String × Option Node) → Nat
  | [] => 0
  | (_, none) :: rest => 8 + costEntries rest
  | (_, some x) :: rest => (7 + costNode x) + costEntries rest
end

/-- Actions left for the walk of `root`, permit held. -/
def costRoot : Option Node → Nat
  | none => 1
  | some x => costNode x

/-- Actions left on behalf of one pending visit of the walk rooted at `r`. -/
def itemCost (r : Path) (it : Item) : Nat :=
  if it.1 = r then costRoot it.2 else 7 + costRoot it.2

/-- Actions left on behalf of the frames of `filepath.Walk`. -/
def stackCost (r : Path) (st : List (List Item)) : Nat :=
  (st.map (fun fr => 1 + (fr.map (itemCost r)).sum)).sum

/-- Actions left on behalf of one goroutine. -/
def taskCost : Task → Nat
  | .waiting _ x => 5 + costRoot x
  | .walking r st => 3 + stackCost r st
  | .spawning r _ x cont => 9 + costRoot x + stackCost r cont
  | .releasing => 2
  | .exiting => 1

/-- Actions left for the caller of WalkAndCollect, the goroutine it is still
to start included. -/
def mainCost (s : WalkState) : Nat :=
  match s.main with
  | .entry => 8 + costRoot s.fs
  | .added => 7 + costRoot s.fs
  | .waiting => 1
  | .returned => 0

/-- An upper bound on the number of actions a walk can still take. -/
def measure (s : WalkState) : Nat := mainCost s + (s.tasks.map taskCost).sum

/-! ## The filesystem of the copier -/

/-- What is at a path: a file with its bytes and whether it may be opened for
reading and for writing, or a directory with whether entries may be added. -/
inductive Entry
  | file (content : List Nat) (readable writable : Bool)
  | dir (writable : Bool)
  deriving DecidableEq, Repr

/-- The filesystem: what each path names, if anything. -/
abbrev FS := Path → Option Entry

/-- The filesystem with `e` at path `p`. -/
def FS.set (fs : FS) (p : Path) (e : Entry) : FS := fun q => if q = p then some e else fs q

/-- The call `filepath.Dir(p)`. -/
def Dir (p : Path) : Path := p.dropLast

/-- Whether a regular file is at `p`. -/
def isFileAt (fs : FS) (p : Path) : Bool :=
  match fs p with
  | some (.file _ _ _) => true
  | _ => false

/-- Whether `os.Open(p)` succeeds: `p` is a readable file or a directory. -/
def canOpen (fs : FS) (p : Path) : Bool :=
  match fs p with
  | some (.file _ readable _) => readable
  | some (.dir _) => true
  | none => false

/-- The three outcomes of `os.Stat` that `runCopier` tells apart: no error, an
error for which `os.IsNotExist` holds, any other error. -/
inductive StatResult
  | found
  | notExist
  | otherErr
  deriving DecidableEq, Repr

/-- The call `os.Stat(p)`: when nothing is at `p` the error is ENOENT, unless a
file stands where a directory of the path should be (ENOTDIR). -/
def Stat (fs : FS) (p : Path) : StatResult :=
  match fs p with
  | some _ => .found
  | none => if p.inits.any (isFileAt fs) then .otherErr else .notExist

/-- Creates the directories named by `names` one below the other, starting in
`base`; an existing directory is kept, a file in the way or a parent that is
not a writable directory is an error.  The directories created before an
error remain. -/
def mkdirFrom (fs : FS) (base : Path) : List String → FS × Bool
  | [] => (fs, true)
  | n :: rest =>
    match fs (base ++ [n]) with
    | some (.dir _) => mkdirFrom fs (base ++ [n]) rest
    | some (.file _ _ _) => (fs, false)
    | none =>
      match fs base with
      | some (.dir true) => mkdirFrom (fs.set (base ++ [n]) (.dir true)) (base ++ [n]) rest
      | _ => (fs, false)

/-- The call `os.MkdirAll(p, os.ModePerm)`: the new filesystem and whether the
call succeeded. -/
def MkdirAll (fs : FS) (p : Path) : FS × Bool := mkdirFrom fs [] p

/-- The call `os.Create(p)`: truncates a writable file, creates a file in a
writable directory, fails otherwise. -/
def Create (fs : FS) (p : Path) : FS × Bool :=
  match fs p with
  | some (.file _ r true) => (fs.set p (.file [] r true), true)
  | some _ => (fs, false)
  | none =>
    match p, fs (Dir p) with
    | _ :: _, some (.dir true) => (fs.set p (.file [] true true), true)
    | _, _ => (fs, false)

/-- The call `io.Copy(dst, src)` on the handles opened at `dst` and `src`: the
bytes of `src` become the content of `dst`; reading a directory fails. -/
def ioCopy (fs : FS) (dst src : Path) : FS × Bool :=
  match fs src, fs dst with
  | some (.file c _ _), some (.file _ r w) => (fs.set dst (.file c r w), true)
  | _, _ => (fs, false)

/-! ## The copier pool -/

/-- A line printed by `runCopier`, with the pair it was printed for:
`err in opening: ...`, `err creating dir: ...`, `stat err`,
`error creating file: ...`. -/
inductive Diag
  | openErr (pair : Path × Path)
  | mkdirErr (pair : Path × Path)
  | statErr (pair : Path × Path)
  | createErr (pair : Path × Path)
  deriving DecidableEq, Repr

/-- The pair a line was printed for. -/
def Diag.pair : Diag → Path × Path
  | .openErr p => p
  | .mkdirErr p => p
  | .statErr p => p
  | .createErr p => p

/-- The statement of the loop body of `runCopier` a worker is about to
execute: `os.Open`, `os.Stat`, `os.MkdirAll`, `os.Create`, `io.Copy`,
`dst.Close()`, `src.Close()`. -/
inductive Stage
  | opening
  | statting
  | making
  | creating
  | copying
  | closingDst
  | closingSrc
  deriving DecidableEq, Repr

/-- Program counter of one goroutine running `runCopier`: at the receive
`<-c.feed`, or inside the loop body with the pair it received. -/
inductive Worker
  | idle
  | busy (st : Stage) (pair : Path × Path)
  deriving DecidableEq, Repr

/-- CCopier: `n` workers, the counter of the WaitGroup, and whether the
unbuffered channel `feed` has been closed. -/
structure CCopier where
  n : Nat
  wg : Int
  closed : Bool

/-- NewCCopier: coerce `n` to at least 1 and make the channel. -/
def NewCCopier (n : Int) : CCopier :=
  let n := if n < 1 then 1 else n
  { n := n.toNat, wg := 0, closed := false }

/-- Program counter of the caller: before `Start`, inside the loop of `Start`
with `k` goroutines still to create, sending the pairs with `Copy`, inside
`Wait` after `close(c.feed)`, after `Wait`. -/
inductive PoolPc
  | entry
  | starting (k : Nat)
  | feeding
  | waiting
  | returned
  deriving DecidableEq, Repr

/-- State of one use of a copier: `queue` holds the pairs the caller is still
to pass to `Copy`, `out` the lines printed, `handles` the files open, and
`finished` the pairs for which the loop body ran to its end. -/
structure PoolState where
  c : CCopier
  queue : List (Path × Path)
  workers : List Worker
  main : PoolPc
  fs : FS
  out : List Diag
  handles : List Path
  finished : List (Path × Path)

/-- What one statement of the loop body leaves behind. -/
structure Outcome where
  next : Worker
  fs : FS
  handles : List Path
  out : List Diag
  finished : List (Path × Path)

/-- The loop body of `runCopier`, one statement: the program counter after
it, the filesystem and the open files after it, the line printed and the pair
completed, if any. -/
def runBody (fs : FS) (handles : List Path) (st : Stage) (pair : Path × Path) : Outcome :=
  match st with
  | .opening =>
    if canOpen fs pair.1 then ⟨.busy .statting pair, fs, pair.1 :: handles, [], []⟩
    else ⟨.idle, fs, handles, [.openErr pair], []⟩
  | .statting =>
    match Stat fs (Dir pair.2) with
    | .found => ⟨.busy .creating pair, fs, handles, [], []⟩
    | .notExist => ⟨.busy .making pair, fs, handles, [], []⟩
    | .otherErr => ⟨.idle, fs, handles, [.statErr pair], []⟩
  | .making =>
    if (MkdirAll fs (Dir pair.2)).2 then
      ⟨.busy .creating pair, (MkdirAll fs (Dir pair.2)).1, handles, [], []⟩
    else ⟨.idle, (MkdirAll fs (Dir pair.2)).1, handles, [.mkdirErr pair], []⟩
  | .creating =>
    if (Create fs pair.2).2 then
      ⟨.busy .copying pair, (Create fs pair.2).1, pair.2 :: handles, [], []⟩
    else ⟨.idle, fs, handles, [.createErr pair], []⟩
  | .copying => ⟨.busy .closingDst pair, (ioCopy fs pair.2 pair.1).1, handles, [], []⟩
  | .closingDst => ⟨.busy .closingSrc pair, fs, handles.erase pair.2, [], []⟩
  | .closingSrc => ⟨.idle, fs, handles.erase pair.1, [], [pair]⟩

/-- The method Start, one action of its caller: `c.wg.Add(c.n)`, then `c.n`
times `go c.runCopier()`, then the return. -/
def Start (s : PoolState) : Option PoolState :=
  match s.main with
  | .entry => some { s with c := { s.c with wg := s.c.wg + s.c.n }, main := .starting s.c.n }
  | .starting (k + 1) => some { s with workers := s.workers ++ [.idle], main := .starting k }
  | .starting 0 => some { s with main := .feeding }
  | _ => none

/-- The method Wait, one action of its caller: `close(c.feed)`, entered once
every call of Copy has returned, then `c.wg.Wait()`, which returns once the
counter is zero.  While a pair is still to be sent the caller is blocked in
`Copy`, on `c.feed <- pair`, until a worker receives it (see `runCopier`). -/
def Wait (s : PoolState) : Option PoolState :=
  match s.main with
  | .feeding =>
    match s.queue with
    | [] => some { s with c := { s.c with closed := true }, main := .waiting }
    | _ :: _ => none
  | .waiting => if s.c.wg = 0 then some { s with main := .returned } else none
  | _ => none

/-- One action of the caller of the pool: inside Start, or inside Wait. -/
def poolStepMain (s : PoolState) : Option PoolState :=
  match s.main with
  | .entry => Start s
  | .starting _ => Start s
  | _ => Wait s

/-- The method `runCopier`, one action of the worker at position `i`. -/
def runCopier (s : PoolState) (i : Nat) : Option PoolState :=
  match s.workers.drop i with
  | [] => none
  | w :: post =>
    let pre := s.workers.take i
    match w with
    | .idle =>
      if s.c.closed then
        some { s with c := { s.c with wg := s.c.wg - 1 }, workers := pre ++ post }
      else
        match s.main, s.queue with
        | .feeding, pair :: rest =>
          some { s with queue := rest, workers := pre ++ .busy .opening pair :: post }
        | _, _ => none
    | .busy st pair =>
      let r := runBody s.fs s.handles st pair
      some { s with fs := r.fs, handles := r.handles, out := s.out ++ r.out,
                    finished := s.finished ++ r.finished, workers := pre ++ r.next :: post }

/-- One action of thread `i` of the pool: thread 0 is the caller, thread
`k + 1` the worker at position `k`. -/
def poolStep (s : PoolState) : Nat → Option PoolState
  | 0 => poolStepMain s
  | k + 1 => runCopier s k

/-- The state in which `NewCCopier(n)` is about to be started, with the pairs
of `batch` to be passed to `Copy` before `Wait`. -/
def poolInit (n : Int) (fs : FS) (batch : List (Path × Path)) : PoolState :=
  { c := NewCCopier n, queue := batch, workers := [], main := .entry, fs := fs, out := [],
    handles := [], finished := [] }

/-- Runs a schedule of the pool; a thread that is blocked when its turn comes
does nothing. -/
def poolRun (s : PoolState) : List Nat → PoolState
  | [] => s
  | i :: rest =>
    match poolStep s i with
    | some s' => poolRun s' rest
    | none => poolRun s rest

/-- The states a pool can be in. -/
inductive PoolReachable (s0 : PoolState) : PoolState → Prop
  | start : PoolReachable s0 s0
  | next {s s' : PoolState} (i : Nat) :
      PoolReachable s0 s → poolStep s i = some s' → PoolReachable s0 s'

/-- The first worker, from position `k` on, that can act; the caller when none
can. -/
def poolFirstEnabled (s : PoolState) : Nat → Nat → Nat
  | 0, _ => 0
  | fuel + 1, k =>
    if (runCopier s k).isSome then k + 1 else poolFirstEnabled s fuel (k + 1)

/-- Runs the pool for at most `fuel` actions, the caller acting whenever it
can and the first worker that can act otherwise. -/
def poolRunFirst : Nat → PoolState → PoolState
  | 0, s => s
  | fuel + 1, s =>
    match poolStepMain s with
    | some s' => poolRunFirst fuel s'
    | none =>
      match poolStep s (poolFirstEnabled s s.workers.length 0) with
      | some s' => poolRunFirst fuel s'
      | none => s

/-- A filesystem given by the list of its entries. -/
def fsOf (l : List (Path × Entry)) : FS := fun p => (l.find? (fun e => e.1 == p)).map Prod.snd

/-- The filesystem `/{root/{x.txt, y.txt}}` of the copy scenario. -/
def specFS : FS :=
  fsOf [([], .dir true), (["root"], .dir true),
        (["root", "x.txt"], .file [120] true true),
        (["root", "y.txt"], .file [121, 121] true true)]

/-- The batch of the copy scenario. -/
def specBatch : List (Path × Path) :=
  [(["root", "x.txt"], ["out", "x.txt"]), (["root", "y.txt"], ["out", "sub", "y.txt"])]


/-! ## Proof devices for the pool -/

/-- The actions of `poolStep`, as a relation (used to reason by cases). -/
inductive PoolAct : PoolState → PoolState → Prop
  | add (s : PoolState) : s.main = .entry →
      PoolAct s { s with c := { s.c with wg := s.c.wg + s.c.n }, main := .starting s.c.n }
  | go (s : PoolState) (k : Nat) : s.main = .starting (k + 1) →
      PoolAct s { s with workers := s.workers ++ [.idle], main := .starting k }
  | started (s : PoolState) : s.main = .starting 0 →
      PoolAct s { s with main := .feeding }
  | close (s : PoolState) : s.main = .feeding → s.queue = [] →
      PoolAct s { s with c := { s.c with closed := true }, main := .waiting }
  | ret (s : PoolState) : s.main = .waiting → s.c.wg = 0 →
      PoolAct s { s with main := .returned }
  | exit (s : PoolState) (pre post : List Worker) :
      s.workers = pre ++ .idle :: post → s.c.closed = true →
      PoolAct s { s with c := { s.c with wg := s.c.wg - 1 }, workers := pre ++ post }
  | take (s : PoolState) (pre post : List Worker) (pair : Path × Path)
      (rest : List (Path × Path)) :
      s.workers = pre ++ .idle :: post → s.c.closed = false → s.main = .feeding →
      s.queue = pair :: rest →
      PoolAct s { s with queue := rest, workers := pre ++ .busy .opening pair :: post }
  | work (s : PoolState) (pre post : List Worker) (st : Stage) (pair : Path × Path) :
      s.workers = pre ++ .busy st pair :: post →
      PoolAct s { s with fs := (runBody s.fs s.handles st pair).fs,
                         handles := (runBody s.fs s.handles st pair).handles,
                         out := s.out ++ (runBody s.fs s.handles st pair).out,
                         finished := s.finished ++ (runBody s.fs s.handles st pair).finished,
                         workers := pre ++ (runBody s.fs s.handles st pair).next :: post }

/-- The goroutines `Start` has counted with `Add` and not created yet. -/
def pendStart : PoolPc → Nat
  | .starting k => k
  | _ => 0

/-- The counting invariants of a pool made by `NewCCopier(n)`. -/
structure PoolInv (n : Int) (s : PoolState) : Prop where
  n_eq : s.c.n = (max n 1).toNat
  counter : s.c.wg = ((s.workers.length + pendStart s.main : Nat) : Int)
  closed_iff : s.c.closed = true ↔ (s.main = .waiting ∨ s.main = .returned)
  closed_queue : s.c.closed = true → s.queue = []
  entry : s.main = .entry → s.workers = []
  starting : ∀ k, s.main = .starting k → s.workers.length + k = s.c.n
  feeding : s.main = .feeding → s.workers.length = s.c.n
  returned : s.main = .returned → s.workers = []

/-- Statements left in the loop body for a worker, its exit included. -/
def workerCost : Worker → Nat
  | .idle => 1
  | .busy .opening _ => 8
  | .busy .statting _ => 7
  | .busy .making _ => 6
  | .busy .creating _ => 5
  | .busy .copying _ => 4
  | .busy .closingDst _ => 3
  | .busy .closingSrc _ => 2

/-- Actions left for the caller, the workers it is still to create included. -/
def poolMainCost (s : PoolState) : Nat :=
  match s.main with
  | .entry => 2 * s.c.n + 4
  | .starting k => 2 * k + 3
  | .feeding => 2
  | .waiting => 1
  | .returned => 0

/-- An upper bound on the number of actions a pool can still take. -/
def poolMeasure (s : PoolState) : Nat :=
  poolMainCost s + 9 * s.queue.length + (s.workers.map workerCost).sum

/-- The pair a worker holds, if any. -/
def Worker.task : Worker → List (Path × Path)
  | .idle => []
  | .busy _ p => [p]

/-- The pairs received by the workers and not dealt with yet. -/
def inflight (ws : List Worker) : List (Path × Path) := ws.flatMap Worker.task

/-- A file with content `c` is at `p`. -/
def hasContent (fs : FS) (p : Path) (c : List Nat) : Prop :=
  ∃ r w, fs p = some (.file c r w)

/-- A directory is at `p`. -/
def isDirAt (fs : FS) (p : Path) : Prop := ∃ w, fs p = some (.dir w)

/-- A filesystem is a tree: the root is a directory and whatever exists lies
in a directory. -/
def TreeFS (fs : FS) : Prop :=
  isDirAt fs [] ∧ ∀ p, p ≠ [] → fs p ≠ none → isDirAt fs (Dir p)

/-- The invariant of the pool that follows one pair `(src, dst)` of the batch
whose source holds `e0` at the start. -/
structure CopyInv (batch : List (Path × Path)) (src dst : Path) (c : List Nat) (e0 : Entry)
    (s : PoolState) : Prop where
  account : ∀ f : Path × Path → Bool, batch.countP f =
    s.queue.countP f + (inflight s.workers).countP f + s.finished.countP f +
      (s.out.map Diag.pair).countP f
  tree : TreeFS s.fs
  src_stable : s.fs src = some e0
  staged : ∀ st p, Worker.busy st p ∈ s.workers → p.2 = dst →
    (st = .copying → isFileAt s.fs dst = true) ∧
    ((st = .closingDst ∨ st = .closingSrc) → hasContent s.fs dst c)
  done : ∀ p ∈ s.finished, p.2 = dst → hasContent s.fs dst c

/-- Checks on a list of entries that the root is a directory and that every
other entry lies in a directory of the list. -/
def checkTree (l : List (Path × Entry)) : Bool :=
  (match fsOf l [] with
    | some (.dir _) => true
    | _ => false) &&
  l.all (fun e => e.1 == [] ||
    match fsOf l (Dir e.1) with
    | some (.dir _) => true
    | _ => false)

/-- The entries of the filesystem `/{in/{a, b}, out/}`. -/
def dupEntries : List (Path × Entry) :=
  [([], .dir true), (["in"], .dir true), (["in", "a"], .file [1] true true),
   (["in", "b"], .file [2] true true), (["out"], .dir true)]

/-- Two pairs with the same destination. -/
def dupBatch : List (Path × Path) :=
  [(["in", "a"], ["out", "d"]), (["in", "b"], ["out", "d"])]

/-- The entries of the filesystem of the copy scenario. -/
def specEntries : List (Path × Entry) :=
  [([], .dir true), (["root"], .dir true),
   (["root", "x.txt"], .file [120] true true), (["root", "y.txt"], .file [121, 121] true true)]

/-- A batch whose destination `out` is an existing directory. -/
def leakBatch : List (Path × Path) := [(["in", "a"], ["out"])]

/-- A batch whose source `in` is a directory. -/
def dirBatch : List (Path × Path) := [(["in"], ["out", "copy"])]

/-! ## The staging loop of `Add` -/

/-- The call `strings.HasPrefix(s, pre)`. -/
def HasPrefix (s pre : String) : Bool := pre.data.isPrefixOf s.data

/-- The call `strings.TrimPrefix(s, pre)`. -/
def TrimPrefix (s pre : String) : String :=
  if HasPrefix s pre then ⟨s.data.drop pre.data.length⟩ else s

/-- The elements of a path between its separators. -/
def splitSlash : List Char → List (List Char)
  | [] => [[]]
  | c :: cs =>
    if c = '/' then [] :: splitSlash cs
    else
      match splitSlash cs with
      | [] => [[c]]
      | h :: t => (c :: h) :: t

/-- The elements `filepath.Clean` keeps, most recent first: empty elements and
`.` are dropped, `..` removes the element before it, is dropped at the root
and is kept at the start of a relative path. -/
def cleanElems (rooted : Bool) : List (List Char) → List (List Char) → List (List Char)
  | acc, [] => acc
  | acc, e :: rest =>
    if e = [] ∨ e = ['.'] then cleanElems rooted acc rest
    else if e = ['.', '.'] then
      match acc with
      | top :: below =>
        if top = ['.', '.'] then cleanElems rooted (e :: acc) rest
        else cleanElems rooted below rest
      | [] => if rooted then cleanElems rooted [] rest else cleanElems rooted [e] rest
    else cleanElems rooted (e :: acc) rest

/-- The call `filepath.Clean(path)` on a system whose separator is `/`. -/
def filepathClean (path : String) : String :=
  match path.data with
  | [] => "."
  | c :: cs =>
    let rooted := decide (c = '/')
    let elems := (cleanElems rooted [] (splitSlash (c :: cs))).reverse
    match rooted, elems with
    | true, _ => ⟨'/' :: List.intercalate ['/'] elems⟩
    | false, [] => "."
    | false, _ => ⟨List.intercalate ['/'] elems⟩

/-- The call `filepath.Join(elem...)`: the elements from the first one that is
not empty on, joined by separators and cleaned. -/
def filepathJoin (elem : List String) : String :=
  match elem.dropWhile (fun e => e.data.isEmpty) with
  | [] => ""
  | es => filepathClean ⟨List.intercalate ['/'] (es.map String.data)⟩

/-- The loop of `Add` over the collected files: the pairs passed to
`copier.Copy`, in the order the files are ranged over.  A file `sv` with
`strings.HasPrefix(sv, broDir)` is skipped; any other is copied to
`filepath.Join(stagePath, strings.TrimPrefix(sv, broRoot))`. -/
def Add (broRoot : String) (files : List String) : List (String × String) :=
  let broDir := filepathJoin [broRoot, ".bro"]
  let stagePath := filepathJoin [broDir, "_stage"]
  files.filterMap (fun sv =>
    if HasPrefix sv broDir then none
    else some (sv, filepathJoin [stagePath, TrimPrefix sv broRoot]))

/-- The invariant of a pool one of whose sources, `src`, does not exist. -/
structure AbsentInv (batch : List (Path × Path)) (src : Path) (s : PoolState) : Prop where
  members : ∀ p, p ∈ s.queue ∨ p ∈ inflight s.workers → p ∈ batch
  absent : s.fs src = none
  stuck : ∀ st p, Worker.busy st p ∈ s.workers → p.1 = src → st = .opening
  unfinished : ∀ p ∈ s.finished, p.1 ≠ src

/-- A worker of the pool that was given the pair `τ`, against the same worker
of the pool that was not: in the same place, or about to open the source of
`τ` while the other waits at the receive. -/
def lagRel (τ : Path × Path) (w w' : Worker) : Prop :=
  w = w' ∨ (w = .busy .opening τ ∧ w' = .idle)

/-- A state `s` of the pool that was given the pair `τ`, against a state `t`
of the pool that was not: the same filesystem, open files, completed pairs,
counter and caller; the same lines printed apart from those about opening
`τ`; the same pairs still to send, `τ` apart. -/
structure Sim (τ : Path × Path) (s t : PoolState) : Prop where
  c : t.c = s.c
  main : t.main = s.main
  fs : t.fs = s.fs
  handles : t.handles = s.handles
  finished : t.finished = s.finished
  out : t.out.filter (fun d => d != .openErr τ) = s.out.filter (fun d => d != .openErr τ)
  queue : t.queue = s.queue ∨ ∃ q post, s.queue = q ++ τ :: post ∧ t.queue = q ++ post
  workers : List.Forall₂ (lagRel τ) s.workers t.workers

/-- The entries of the filesystem `/{in/a, out/}`. -/
def lonelyEntries : List (Path × Entry) :=
  [([], .dir true), (["in"], .dir true), (["in", "a"], .file [1] true true),
   (["out"], .dir true)]

/-- A batch whose first source, `in/gone`, does not exist. -/
def missingBatch : List (Path × Path) :=
  [(["in", "gone"], ["out", "gone"]), (["in", "a"], ["out", "a"])]

/-! ## Destinations that can be created -/

/-- Nothing but a directory, if anything, is at `q`. -/
def okAbove (fs : FS) (q : Path) : Bool :=
  match fs q with
  | some (.file _ _ _) => false
  | _ => true

/-- If nothing is at `q`, its directory is missing too or is writable. -/
def okParent (fs : FS) (q : Path) : Bool :=
  match fs q, fs (Dir q) with
  | some _, _ => true
  | none, none => true
  | none, some (.dir true) => true
  | none, _ => false

/-- Nothing, or a writable file, is at `dst`. -/
def okTarget (fs : FS) (dst : Path) : Bool :=
  match fs dst with
  | none => true
  | some (.file _ _ true) => true
  | _ => false

/-- The directory and the file of the destination `dst` can be created in
`fs`: no file stands where a directory of the path should be, whatever is
missing on the path lies in a directory that is missing too or writable, and
`dst` itself is missing or a writable file. -/
def creatable (fs : FS) (dst : Path) : Bool :=
  dst.inits.all (fun q => q == dst || okAbove fs q) &&
  dst.inits.all (fun q => q == [] || okParent fs q) &&
  okTarget fs dst

/-- The invariant of the pool that keeps the destination `dst` of one pair
ready to be created: nothing but directories above it, a writable directory
above whatever is still missing on its path, itself missing or a writable
file, its directory in place when `os.Create` is about to run, and no
failure line printed for it. -/
structure ReadyInv (dst : Path) (s : PoolState) : Prop where
  anc : ∀ q, q <+: dst → q ≠ dst → s.fs q = none ∨ isDirAt s.fs q
  wr : ∀ q n, (q ++ [n]) <+: dst → s.fs (q ++ [n]) = none →
    s.fs q = none ∨ s.fs q = some (.dir true)
  target : s.fs dst = none ∨ ∃ c r, s.fs dst = some (.file c r true)
  parent : ∀ p, Worker.busy .creating p ∈ s.workers → p.2 = dst → isDirAt s.fs (Dir dst)
  quiet : ∀ d ∈ s.out, d.pair.2 ≠ dst

/-- A batch whose second pair writes the source of the first. -/
def overwriteBatch : List (Path × Path) :=
  [(["in", "b"], ["out", "d"]), (["in", "a"], ["in", "b"])]

/-- A batch whose first destination is the directory of the second. -/
def nestedBatch : List (Path × Path) :=
  [(["in", "a"], ["out", "x"]), (["in", "b"], ["out", "x", "y"])]

/-! ## Concrete trees -/

/-- The tree `root/{a/file1.txt, a/b/file2.txt, c/file3.txt}`. -/
def specTree : Node :=
  .dir true
    [("a", some (.dir true [("b", some (.dir true [("file2.txt", some (.file .regular))])),
                            ("file1.txt", some (.file .regular))])),
     ("c", some (.dir true [("file3.txt", some (.file .regular))]))]

/-- The tree `root/{data.txt, latest}` where `latest` is a symbolic link. -/
def linkTree : Node :=
  .dir true [("data.txt", some (.file .regular)), ("latest", some (.file .symlink))]

/-- The tree `root/{ctl.sock, run/}` where `ctl.sock` is a socket and `run`
cannot be read. -/
def sockTree : Node :=
  .dir true [("ctl.sock", some (.file .socket)), ("run", some (.dir false []))]

/-- The tree `root/{a.txt, m/n.txt, s/deep.txt, z.txt}`; `readable` tells
whether the names of the directory `m` can be read. -/
def lockedTree (readable : Bool) : Node :=
  .dir true
    [("a.txt", some (.file .regular)),
     ("m", some (.dir readable [("n.txt", some (.file .regular))])),
     ("s", some (.dir true [("deep.txt", some (.file .regular))])),
     ("z.txt", some (.file .regular))]

/-! ## Statements -/

theorem step_sound {s s' : WalkState} {i : Nat} (h : step s i = some s') : Step s s' := by
  cases i with
  | zero =>
    simp only [step, WalkAndCollect] at h
    split at h
    · cases h; exact Step.add s ‹_›
    · cases h; exact Step.go s ‹_›
    · split at h
      · cases h; exact Step.ret s ‹_› ‹_›
      · cases h
    · cases h
  | succ k =>
    simp only [step, walk] at h
    split at h
    · cases h
    · rename_i t post hd
      have ht : s.tasks = s.tasks.take k ++ t :: post := by
        rw [← hd, List.take_append_drop]
      split at h
      · split at h
        · cases h
        · cases h; exact Step.acquire s _ _ _ _ ht ‹_›
      · cases h; exact Step.walked s _ _ _ ht
      · cases h; exact Step.pop s _ _ _ _ ht
      · split at h
        · cases h; exact Step.fail s _ _ _ _ _ _ _ ht ‹_›
        · cases h; exact Step.spawn s _ _ _ _ _ _ _ ht ‹_›
        · cases h; exact Step.store s _ _ _ _ _ _ _ ht ‹_›
        · cases h; exact Step.pass s _ _ _ _ _ _ _ ht ‹_›
      · cases h; exact Step.fork s _ _ _ _ _ _ ht
      · split at h
        · cases h; exact Step.release s _ _ ht ‹_›
        · cases h
      · cases h; exact Step.done s _ _ ht

theorem countInv_init (n : Int) (root : Path) (fs : Option Node) :
    CountInv n (walkInit n root fs) := by
  refine ⟨?_, ?_, ?_, ?_, ?_⟩
  · simp only [walkInit, NewCWalker]
    split <;> rename_i h
    · rw [max_eq_right (by omega)]
    · rw [max_eq_left (by omega)]
  · simp [walkInit, NewCWalker, holders]
  · simp [walkInit, NewCWalker, mainAdds]
  · intro _; rfl
  · intro _; rfl

theorem main_waiting {s : WalkState} {pre post : List Task} {t : Task}
    (hearly : s.main = .entry ∨ s.main = .added → s.tasks = [])
    (hlate : s.main = .returned → s.tasks = []) (ht : s.tasks = pre ++ t :: post) :
    s.main = .waiting := by
  rcases hmm : s.main with _ | _ | _ | _
  · have := hearly (Or.inl hmm); simp [ht] at this
  · have := hearly (Or.inr hmm); simp [ht] at this
  · rfl
  · have := hlate hmm; simp [ht] at this

theorem countInv_step {n : Int} {s s' : WalkState} (hs : CountInv n s) (h : Step s s') :
    CountInv n s' := by
  obtain ⟨hcap, hperm, hctr, hearly, hlate⟩ := hs
  unfold holders at hperm
  cases h with
  | add hm =>
    have := hearly (Or.inl hm)
    refine ⟨hcap, hperm, ?_, fun _ => this, fun h => by simp at h⟩
    simp only [hm, this, mainAdds] at hctr ⊢
    simp [hctr]
  | go hm =>
    have := hearly (Or.inr hm)
    refine ⟨hcap, ?_, ?_, fun h => by simp at h, fun h => by simp at h⟩
    · simpa [holders, this, holds] using hperm
    · simp only [hm, this, mainAdds] at hctr ⊢
      simp [hctr, adds]
  | ret hm hz =>
    have hne : s.tasks = [] := by
      rw [hz] at hctr
      have : s.tasks.length = 0 := by omega
      exact List.length_eq_zero.mp this
    refine ⟨hcap, hperm, ?_, fun _ => hne, fun _ => hne⟩
    simp only [hm, mainAdds] at hctr ⊢
    exact hctr
  | acquire pre post r x ht hp =>
    have hm := main_waiting hearly hlate ht
    refine ⟨hcap, ?_, ?_, fun h => by simp [hm] at h, fun h => by simp [hm] at h⟩
    · simp only [ht, holders, List.map_append, List.map_cons, List.sum_append, List.sum_cons, holds] at hperm ⊢
      omega
    · simp only [ht, List.length_append, List.length_cons, List.map_append, List.map_cons, List.sum_append, List.sum_cons, adds] at hctr ⊢
      exact hctr
  | walked pre post r ht =>
    have hm := main_waiting hearly hlate ht
    refine ⟨hcap, ?_, ?_, fun h => by simp [hm] at h, fun h => by simp [hm] at h⟩
    · simp only [ht, holders, List.map_append, List.map_cons, List.sum_append, List.sum_cons,
        holds] at hperm ⊢
      omega
    · simp only [ht, List.length_append, List.length_cons, List.map_append, List.map_cons,
        List.sum_append, List.sum_cons, adds] at hctr ⊢
      exact hctr
  | pop pre post r st ht =>
    have hm := main_waiting hearly hlate ht
    refine ⟨hcap, ?_, ?_, fun h => by simp [hm] at h, fun h => by simp [hm] at h⟩
    · simp only [ht, holders, List.map_append, List.map_cons, List.sum_append, List.sum_cons,
        holds] at hperm ⊢
      omega
    · simp only [ht, List.length_append, List.length_cons, List.map_append, List.map_cons,
        List.sum_append, List.sum_cons, adds] at hctr ⊢
      exact hctr
  | fail pre post r p x fr st ht _ =>
    have hm := main_waiting hearly hlate ht
    refine ⟨hcap, ?_, ?_, fun h => by simp [hm] at h, fun h => by simp [hm] at h⟩
    · simp only [ht, holders, List.map_append, List.map_cons, List.sum_append, List.sum_cons,
        holds] at hperm ⊢
      omega
    · simp only [ht, List.length_append, List.length_cons, List.map_append, List.map_cons,
        List.sum_append, List.sum_cons, adds] at hctr ⊢
      exact hctr
  | spawn pre post r p x fr st ht _ =>
    have hm := main_waiting hearly hlate ht
    refine ⟨hcap, ?_, ?_, fun h => by simp [hm] at h, fun h => by simp [hm] at h⟩
    · simp only [ht, holders, List.map_append, List.map_cons, List.sum_append, List.sum_cons,
        holds] at hperm ⊢
      omega
    · simp only [ht, List.length_append, List.length_cons, List.map_append, List.map_cons,
        List.sum_append, List.sum_cons, adds] at hctr ⊢
      rw [hctr]; push_cast; ring
  | store pre post r p x fr st ht _ =>
    have hm := main_waiting hearly hlate ht
    refine ⟨hcap, ?_, ?_, fun h => by simp [hm] at h, fun h => by simp [hm] at h⟩
    · simp only [ht, holders, List.map_append, List.map_cons, List.sum_append, List.sum_cons,
        holds] at hperm ⊢
      omega
    · simp only [ht, List.length_append, List.length_cons, List.map_append, List.map_cons,
        List.sum_append, List.sum_cons, adds] at hctr ⊢
      exact hctr
  | pass pre post r p x fr st ht _ =>
    have hm := main_waiting hearly hlate ht
    refine ⟨hcap, ?_, ?_, fun h => by simp [hm] at h, fun h => by simp [hm] at h⟩
    · simp only [ht, holders, List.map_append, List.map_cons, List.sum_append, List.sum_cons,
        holds] at hperm ⊢
      omega
    · simp only [ht, List.length_append, List.length_cons, List.map_append, List.map_cons,
        List.sum_append, List.sum_cons, adds] at hctr ⊢
      exact hctr
  | fork pre post r p x cont ht =>
    have hm := main_waiting hearly hlate ht
    refine ⟨hcap, ?_, ?_, fun h => by simp [hm] at h, fun h => by simp [hm] at h⟩
    · simp only [ht, holders, List.map_append, List.map_cons, List.sum_append, List.sum_cons,
        holds, List.map_nil, List.sum_nil] at hperm ⊢
      omega
    · simp only [ht, List.length_append, List.length_cons, List.map_append, List.map_cons,
        List.sum_append, List.sum_cons, adds, List.map_nil, List.sum_nil, List.length_nil]
        at hctr ⊢
      rw [hctr]; push_cast; ring
  | release pre post ht _ =>
    have hm := main_waiting hearly hlate ht
    refine ⟨hcap, ?_, ?_, fun h => by simp [hm] at h, fun h => by simp [hm] at h⟩
    · simp only [ht, holders, List.map_append, List.map_cons, List.sum_append, List.sum_cons,
        holds] at hperm ⊢
      omega
    · simp only [ht, List.length_append, List.length_cons, List.map_append, List.map_cons,
        List.sum_append, List.sum_cons, adds] at hctr ⊢
      exact hctr
  | done pre post ht =>
    have hm := main_waiting hearly hlate ht
    refine ⟨hcap, ?_, ?_, fun h => by simp [hm] at h, fun h => by simp [hm] at h⟩
    · simp only [ht, holders, List.map_append, List.map_cons, List.sum_append, List.sum_cons,
        holds] at hperm ⊢
      omega
    · simp only [ht, List.length_append, List.length_cons, List.map_append, List.map_cons,
        List.sum_append, List.sum_cons, adds] at hctr ⊢
      rw [hctr]; push_cast; ring

theorem mem_keys_Store (m : SyncMap) (k v q : Path) :
    q ∈ keys (Store m k v) ↔ q = k ∨ q ∈ keys m := by
  simp only [keys, Store, List.map_cons, List.mem_cons, List.mem_map, List.mem_filter]
  constructor
  · rintro (h | ⟨e, ⟨he, _⟩, rfl⟩)
    · exact Or.inl h
    · exact Or.inr ⟨e, he, rfl⟩
  · rintro (h | ⟨e, he, rfl⟩)
    · exact Or.inl h
    · by_cases hk : e.1 = k
      · exact Or.inl hk
      · exact Or.inr ⟨e, ⟨he, by simpa using hk⟩, rfl⟩

theorem nodup_keys_Store (m : SyncMap) (k v : Path) (h : (keys m).Nodup) :
    (keys (Store m k v)).Nodup := by
  simp only [keys, Store, List.map_cons, List.nodup_cons, List.mem_map, List.mem_filter]
  refine ⟨?_, ?_⟩
  · rintro ⟨e, ⟨_, he⟩, rfl⟩
    simp at he
  · exact (List.filter_sublist m).map Prod.fst |>.nodup h

theorem child_ne (d : Path) (n : String) : child d n ≠ d := by
  intro h
  have := congrArg List.length h
  simp [child] at this

theorem pendItems_entriesOf (d : Path) (es : List (String × Option Node)) :
    pendItems (es.map (fun e => (child d e.1, e.2))) = collectEntries d es := by
  induction es with
  | nil => simp [pendItems, collectEntries]
  | cons e rest ih =>
    obtain ⟨n, x⟩ := e
    rcases x with _ | ⟨k⟩ | ⟨_ | _, es'⟩ <;>
      simp [pendItems, collectEntries, collectNode, collectRoot, errOf, ih]

theorem collectRoot_err {p : Path} {x : Option Node} (h : errOf x = true) :
    collectRoot p x = [] := by
  rcases x with _ | ⟨k⟩ | ⟨_ | _, es'⟩ <;> simp_all [collectRoot, collectNode, errOf]

theorem walkFn_fail {r p : Path} {x : Option Node}
    (h : walkFn r p (isDirOf x) (errOf x) = .fail) : errOf x = true := by
  unfold walkFn at h
  split at h
  · assumption
  · split at h
    · cases h
    · split at h <;> cases h

theorem walkFn_spawn {r p : Path} {x : Option Node}
    (h : walkFn r p (isDirOf x) (errOf x) = .spawn) :
    p ≠ r ∧ ∃ es, x = some (.dir true es) := by
  rcases x with _ | ⟨k⟩ | ⟨_ | _, es'⟩ <;> simp_all [walkFn, isDirOf, errOf]

theorem walkFn_store {r p : Path} {x : Option Node}
    (h : walkFn r p (isDirOf x) (errOf x) = .store) : ∃ k, x = some (.file k) := by
  rcases x with _ | ⟨k⟩ | ⟨_ | _, es'⟩ <;> simp_all [walkFn, isDirOf, errOf]
  split at h <;> cases h

theorem walkFn_pass {r p : Path} {x : Option Node}
    (h : walkFn r p (isDirOf x) (errOf x) = .pass) :
    p = r ∧ ∃ es, x = some (.dir true es) := by
  rcases x with _ | ⟨k⟩ | ⟨_ | _, es'⟩ <;> simp_all [walkFn, isDirOf, errOf]

theorem contentInv_init (n : Int) (root : Path) (fs : Option Node) :
    ContentInv root fs (walkInit n root fs) := by
  refine ⟨rfl, rfl, ?_, ?_, ?_, ?_⟩
  · intro t ht; simp [walkInit] at ht
  · intro q; simp [walkInit, pendMain, keys]
  · simp [walkInit, keys]
  · intro e he; simp [walkInit] at he

theorem contentInv_step {root : Path} {fs : Option Node} {s s' : WalkState}
    (hs : ContentInv root fs s) (h : Step s s') : ContentInv root fs s' := by
  obtain ⟨hroot, hfs, hwf, hmem, hnd, hself⟩ := hs
  cases h with
  | add hm =>
    refine ⟨hroot, hfs, hwf, ?_, hnd, hself⟩
    intro q; rw [hmem q]; simp [pendMain, hm]
  | go hm =>
    refine ⟨hroot, hfs, ?_, ?_, hnd, hself⟩
    · intro t ht
      simp only [List.mem_append, List.mem_singleton] at ht
      rcases ht with ht | rfl
      · exact hwf t ht
      · trivial
    · intro q; rw [hmem q]
      simp only [pendMain, hm, hroot, hfs, List.flatMap_append, List.flatMap_cons,
        List.flatMap_nil, List.mem_append, List.append_nil, pend, List.not_mem_nil]
      tauto
  | ret hm hz =>
    refine ⟨hroot, hfs, hwf, ?_, hnd, hself⟩
    intro q; rw [hmem q]; simp [pendMain, hm]
  | acquire pre post r x ht hp =>
    refine ⟨hroot, hfs, ?_, ?_, hnd, hself⟩
    · intro t htm
      simp only [List.mem_append, List.mem_cons] at htm
      rcases htm with htm | rfl | htm
      · exact hwf t (by simp [ht, htm])
      · exact Or.inl ⟨x, rfl⟩
      · exact hwf t (by simp [ht, htm])
    · intro q; rw [hmem q]
      have : pendItems [(r, x)] = collectRoot r x := by
        by_cases he : errOf x = true
        · simp [pendItems, he, collectRoot_err he]
        · simp [pendItems, he]
      simp [pendMain, ht, List.flatMap_append, pend, this]
  | walked pre post r ht =>
    have hmm : pendMain { s with tasks := pre ++ Task.releasing :: post } = pendMain s := rfl
    refine ⟨hroot, hfs, ?_, ?_, hnd, hself⟩
    · intro t htm
      simp only [List.mem_append, List.mem_cons] at htm
      rcases htm with htm | rfl | htm
      · exact hwf t (by simp [ht, htm])
      · trivial
      · exact hwf t (by simp [ht, htm])
    · intro q; rw [hmem q, hmm]
      simp only [ht, List.flatMap_append, List.flatMap_cons, List.mem_append, pend,
        List.flatten_nil, pendItems, List.not_mem_nil]
  | pop pre post r st ht =>
    have hmm : pendMain { s with tasks := pre ++ Task.walking r st :: post } = pendMain s := rfl
    refine ⟨hroot, hfs, ?_, ?_, hnd, hself⟩
    · intro t htm
      simp only [List.mem_append, List.mem_cons] at htm
      rcases htm with htm | rfl | htm
      · exact hwf t (by simp [ht, htm])
      · have := hwf (.walking r ([] :: st)) (by simp [ht])
        rcases this with ⟨x, hx⟩ | hall
        · simp at hx
        · exact Or.inr (by simpa using hall)
      · exact hwf t (by simp [ht, htm])
    · intro q; rw [hmem q, hmm]
      simp only [ht, List.flatMap_append, List.flatMap_cons, List.mem_append, pend,
        List.flatten_cons, List.nil_append]
  | fail pre post r p x fr st ht hf =>
    have hmm : pendMain { s with tasks := pre ++ Task.releasing :: post } = pendMain s := rfl
    refine ⟨hroot, hfs, ?_, ?_, hnd, hself⟩
    · intro t htm
      simp only [List.mem_append, List.mem_cons] at htm
      rcases htm with htm | rfl | htm
      · exact hwf t (by simp [ht, htm])
      · trivial
      · exact hwf t (by simp [ht, htm])
    · intro q; rw [hmem q, hmm]
      simp only [ht, List.flatMap_append, List.flatMap_cons, List.mem_append, pend,
        List.flatten_cons, List.cons_append, pendItems, walkFn_fail hf, if_true]
  | spawn pre post r p x fr st ht hf =>
    obtain ⟨hne, es, rfl⟩ := walkFn_spawn hf
    refine ⟨hroot, hfs, ?_, ?_, hnd, hself⟩
    · intro t htm
      simp only [List.mem_append, List.mem_cons] at htm
      rcases htm with htm | rfl | htm
      · exact hwf t (by simp [ht, htm])
      · have := hwf (.walking r (((p, some (.dir true es)) :: fr) :: st)) (by simp [ht])
        rcases this with ⟨x, hx⟩ | hall
        · simp only [List.cons.injEq, Prod.mk.injEq] at hx
          obtain ⟨⟨⟨rfl, _⟩, rfl⟩, rfl⟩ := hx
          exact absurd rfl hne
        · intro it hit
          apply hall
          simp only [afterSkipDir] at hit
          simp only [List.flatten_cons, List.cons_append, List.mem_cons]
          exact Or.inr (by simpa using hit)
      · exact hwf t (by simp [ht, htm])
    · intro q; rw [hmem q]
      simp only [ht, pendMain, List.flatMap_append, List.flatMap_cons, List.mem_append, pend,
        List.flatten_cons, List.cons_append, pendItems, afterSkipDir, errOf, Bool.not_true,
        Bool.false_eq_true, if_false, List.append_eq]
  | store pre post r p x fr st ht hf =>
    obtain ⟨k, rfl⟩ := walkFn_store hf
    refine ⟨hroot, hfs, ?_, ?_, nodup_keys_Store _ _ _ hnd, ?_⟩
    · intro t htm
      simp only [List.mem_append, List.mem_cons] at htm
      rcases htm with htm | rfl | htm
      · exact hwf t (by simp [ht, htm])
      · have := hwf (.walking r (((p, some (.file k)) :: fr) :: st)) (by simp [ht])
        rcases this with ⟨x, hx⟩ | hall
        · simp only [List.cons.injEq, Prod.mk.injEq] at hx
          obtain ⟨⟨_, rfl⟩, rfl⟩ := hx
          exact Or.inr (by simp [afterNil, entriesOf])
        · refine Or.inr (fun it hit => hall it ?_)
          simp only [afterNil, entriesOf, List.flatten_cons, List.nil_append] at hit
          simp only [List.flatten_cons, List.cons_append, List.mem_cons]
          exact Or.inr hit
      · exact hwf t (by simp [ht, htm])
    · intro q; rw [hmem q, mem_keys_Store]
      simp only [ht, pendMain, List.flatMap_append, List.flatMap_cons, List.mem_append, pend,
        List.flatten_cons, List.cons_append, pendItems, afterNil, entriesOf, errOf,
        Bool.false_eq_true, if_false, collectRoot, collectNode, List.nil_append,
        List.mem_cons, List.not_mem_nil, List.singleton_append]
      tauto
    · intro e he
      simp only [Store, List.mem_cons, List.mem_filter] at he
      rcases he with rfl | ⟨he, _⟩
      · rfl
      · exact hself e he
  | pass pre post r p x fr st ht hf =>
    obtain ⟨rfl, es, rfl⟩ := walkFn_pass hf
    have hsingle : fr = [] ∧ st = [] := by
      have := hwf (.walking p (((p, some (.dir true es)) :: fr) :: st)) (by simp [ht])
      rcases this with ⟨x, hx⟩ | hall
      · simp only [List.cons.injEq, Prod.mk.injEq] at hx
        exact ⟨hx.1.2, hx.2⟩
      · exact absurd rfl (hall (p, some (.dir true es)) (by simp))
    obtain ⟨rfl, rfl⟩ := hsingle
    refine ⟨hroot, hfs, ?_, ?_, hnd, hself⟩
    · intro t htm
      simp only [List.mem_append, List.mem_cons] at htm
      rcases htm with htm | rfl | htm
      · exact hwf t (by simp [ht, htm])
      · refine Or.inr (fun it hit => ?_)
        simp only [afterNil, entriesOf, List.flatten_cons, List.flatten_nil, List.append_nil,
          List.mem_map] at hit
        obtain ⟨e, _, rfl⟩ := hit
        exact child_ne _ _
      · exact hwf t (by simp [ht, htm])
    · intro q; rw [hmem q]
      simp only [ht, pendMain, List.flatMap_append, List.flatMap_cons, List.mem_append, pend,
        List.flatten_cons, List.flatten_nil, List.append_nil, pendItems, afterNil, entriesOf,
        errOf, Bool.not_true, Bool.false_eq_true, if_false, collectRoot, collectNode,
        pendItems_entriesOf]
  | fork pre post r p x cont ht =>
    refine ⟨hroot, hfs, ?_, ?_, hnd, hself⟩
    · intro t htm
      simp only [List.mem_append, List.mem_cons, List.mem_singleton] at htm
      have hold := hwf (.spawning r p x cont) (by simp [ht])
      rcases htm with (htm | rfl | htm) | rfl | htm
      · exact hwf t (by simp [ht, htm])
      · exact Or.inr hold
      · exact hwf t (by simp [ht, htm])
      · trivial
      · cases htm
    · intro q; rw [hmem q]
      simp only [ht, pendMain, List.flatMap_append, List.flatMap_cons, List.flatMap_nil,
        List.mem_append, pend, List.append_nil]
      tauto
  | release pre post ht hp =>
    refine ⟨hroot, hfs, ?_, ?_, hnd, hself⟩
    · intro t htm
      simp only [List.mem_append, List.mem_cons] at htm
      rcases htm with htm | rfl | htm
      · exact hwf t (by simp [ht, htm])
      · trivial
      · exact hwf t (by simp [ht, htm])
    · intro q; rw [hmem q]
      simp only [ht, pendMain, List.flatMap_append, List.flatMap_cons, List.mem_append, pend]
  | done pre post ht =>
    refine ⟨hroot, hfs, ?_, ?_, hnd, hself⟩
    · intro t htm
      simp only [List.mem_append] at htm
      rcases htm with htm | htm
      · exact hwf t (by simp [ht, htm])
      · exact hwf t (by simp [ht, htm])
    · intro q; rw [hmem q]
      simp only [ht, pendMain, List.flatMap_append, List.flatMap_cons, List.mem_append, pend,
        List.not_mem_nil, false_or]

theorem costEntries_map (d r : Path) (hne : ∀ n, child d n ≠ r)
    (es : List (String × Option Node)) :
    ((es.map (fun e => (child d e.1, e.2))).map (itemCost r)).sum = costEntries es := by
  induction es with
  | nil => simp [costEntries]
  | cons e rest ih =>
    obtain ⟨n, x⟩ := e
    cases x with
    | none =>
      simp only [List.map_cons, List.sum_cons, ih, itemCost, hne n, if_false, costRoot,
        costEntries]
    | some x =>
      simp only [List.map_cons, List.sum_cons, ih, itemCost, hne n, if_false, costRoot,
        costEntries]

theorem measure_step {s s' : WalkState} (h : Step s s') : measure s' < measure s := by
  cases h with
  | add hm => simp only [measure, mainCost, hm]; omega
  | go hm =>
    simp only [measure, mainCost, hm, List.map_append, List.sum_append, List.map_cons,
      List.map_nil, List.sum_cons, List.sum_nil, taskCost]
    omega
  | ret hm hz => simp only [measure, mainCost, hm]; omega
  | acquire pre post r x ht hp =>
    simp only [measure, mainCost, ht, List.map_append, List.sum_append, List.map_cons,
      List.map_nil, List.sum_cons, List.sum_nil, taskCost, stackCost, itemCost, if_true]
    omega
  | walked pre post r ht =>
    simp only [measure, mainCost, ht, List.map_append, List.sum_append, List.map_cons,
      List.map_nil, List.sum_cons, List.sum_nil, taskCost, stackCost]
    omega
  | pop pre post r st ht =>
    simp only [measure, mainCost, ht, List.map_append, List.sum_append, List.map_cons,
      List.map_nil, List.sum_cons, List.sum_nil, taskCost, stackCost]
    omega
  | fail pre post r p x fr st ht hf =>
    simp only [measure, mainCost, ht, List.map_append, List.sum_append, List.map_cons,
      List.map_nil, List.sum_cons, List.sum_nil, taskCost, stackCost]
    omega
  | spawn pre post r p x fr st ht hf =>
    obtain ⟨hne, es, rfl⟩ := walkFn_spawn hf
    simp only [measure, mainCost, ht, List.map_append, List.sum_append, List.map_cons,
      List.map_nil, List.sum_cons, List.sum_nil, taskCost, stackCost, itemCost, hne, if_false,
      afterSkipDir]
    omega
  | store pre post r p x fr st ht hf =>
    obtain ⟨k, rfl⟩ := walkFn_store hf
    have h2 : 2 ≤ itemCost r (p, some (.file k)) := by
      simp only [itemCost, costRoot, costNode]; split <;> omega
    simp only [measure, mainCost, ht, List.map_append, List.sum_append, List.map_cons,
      List.map_nil, List.sum_cons, List.sum_nil, taskCost, stackCost, afterNil, entriesOf]
    omega
  | pass pre post r p x fr st ht hf =>
    obtain ⟨rfl, es, rfl⟩ := walkFn_pass hf
    have := costEntries_map p p (fun n => child_ne p n) es
    simp only [measure, mainCost, ht, List.map_append, List.sum_append, List.map_cons,
      List.map_nil, List.sum_cons, List.sum_nil, taskCost, stackCost, afterNil, entriesOf,
      itemCost, if_true, costRoot, costNode, this]
    omega
  | fork pre post r p x cont ht =>
    simp only [measure, mainCost, ht, List.map_append, List.sum_append, List.map_cons,
      List.map_nil, List.sum_cons, List.sum_nil, taskCost]
    omega
  | release pre post ht hp =>
    simp only [measure, mainCost, ht, List.map_append, List.sum_append, List.map_cons,
      List.map_nil, List.sum_cons, List.sum_nil, taskCost]
    omega
  | done pre post ht =>
    simp only [measure, mainCost, ht, List.map_append, List.sum_append, List.map_cons,
      List.map_nil, List.sum_cons, List.sum_nil, taskCost]
    omega

theorem reachable_inv {n : Int} {root : Path} {fs : Option Node} {s : WalkState}
    (h : Reachable (walkInit n root fs) s) : CountInv n s ∧ ContentInv root fs s := by
  induction h with
  | start => exact ⟨countInv_init n root fs, contentInv_init n root fs⟩
  | next i _ hstep ih =>
    exact ⟨countInv_step ih.1 (step_sound hstep), contentInv_step ih.2 (step_sound hstep)⟩

theorem reachable_trans {s0 s1 s2 : WalkState} (h1 : Reachable s0 s1) (h2 : Reachable s1 s2) :
    Reachable s0 s2 := by
  induction h2 with
  | start => exact h1
  | next i _ hstep ih => exact Reachable.next i ih hstep

theorem reachable_run {s0 : WalkState} (sched : List Nat) :
    ∀ {s : WalkState}, Reachable s0 s → Reachable s0 (run s sched) := by
  induction sched with
  | nil => intro s h; exact h
  | cons i rest ih =>
    intro s h
    simp only [run]
    split
    · rename_i s' hs
      exact ih (Reachable.next i h hs)
    · exact ih h

theorem reachable_runFirst {s0 : WalkState} (fuel : Nat) :
    ∀ {s : WalkState}, Reachable s0 s → Reachable s0 (runFirst fuel s) := by
  induction fuel with
  | zero => intro s h; exact h
  | succ k ih =>
    intro s h
    simp only [runFirst]
    split
    · rename_i s' hs
      exact ih (Reachable.next _ h hs)
    · exact h

theorem walk_at {s : WalkState} {pre post : List Task} {t : Task}
    (ht : s.tasks = pre ++ t :: post) :
    s.tasks.drop pre.length = t :: post ∧ s.tasks.take pre.length = pre := by
  constructor
  · rw [ht]; simp
  · rw [ht]; simp

theorem holds_le_sum {ts pre post : List Task} {t : Task} (ht : ts = pre ++ t :: post) :
    holds t ≤ (ts.map holds).sum := by
  subst ht
  simp only [List.map_append, List.map_cons, List.sum_append, List.sum_cons]
  omega

theorem progress_of_inv {n : Int} {s : WalkState} (hc : CountInv n s)
    (hne : s.main ≠ .returned) : ∃ i s', step s i = some s' := by
  obtain ⟨hcap, hperm, hctr, hearly, hlate⟩ := hc
  rcases hm : s.main with _ | _ | _ | _
  · refine ⟨0, ?_⟩
    simp only [step, WalkAndCollect, hm]
    exact ⟨_, rfl⟩
  · refine ⟨0, ?_⟩
    simp only [step, WalkAndCollect, hm]
    exact ⟨_, rfl⟩
  · by_cases hz : s.w.wg = 0
    · refine ⟨0, ?_⟩
      simp only [step, WalkAndCollect, hm, hz, if_true]
      exact ⟨_, rfl⟩
    · have hcap1 : 1 ≤ s.w.cap := by
        rw [hcap]
        have : (1 : Int) ≤ max n 1 := le_max_right _ _
        omega
      by_cases hall : ∀ t ∈ s.tasks, ∃ r x, t = Task.waiting r x
      · -- every goroutine waits for a permit: the pool is full
        have hzero : holders s = 0 := by
          unfold holders
          apply List.sum_eq_zero
          intro k hk
          obtain ⟨t, ht, rfl⟩ := List.mem_map.mp hk
          obtain ⟨r, x, rfl⟩ := hall t ht
          rfl
        cases hts : s.tasks with
        | nil =>
          exfalso; apply hz
          simp only [hts, hm, mainAdds, List.length_nil, List.map_nil, List.sum_nil] at hctr
          simpa using hctr
        | cons t post =>
          obtain ⟨r, x, rfl⟩ := hall t (by simp [hts])
          have hp : s.w.pool ≠ 0 := by omega
          refine ⟨1, ?_⟩
          simp only [step, walk, hts, List.drop_zero, hp, if_false]
          exact ⟨_, rfl⟩
      · push_neg at hall
        obtain ⟨t, htm, hnw⟩ := hall
        obtain ⟨pre, post, ht⟩ := List.append_of_mem htm
        obtain ⟨hd, htk⟩ := walk_at ht
        refine ⟨pre.length + 1, ?_⟩
        simp only [step, walk, hd, htk]
        cases t with
        | waiting r x => exact absurd rfl (hnw r x)
        | walking r st =>
          rcases st with _ | ⟨_ | ⟨⟨p, x⟩, fr⟩, st⟩
          · exact ⟨_, rfl⟩
          · exact ⟨_, rfl⟩
          · simp only
            cases walkFn r p (isDirOf x) (errOf x) <;> exact ⟨_, rfl⟩
        | spawning r p x cont => exact ⟨_, rfl⟩
        | releasing =>
          have := holds_le_sum (t := Task.releasing) ht
          have hp : s.w.pool < s.w.cap := by
            unfold holders at hperm
            simp only [holds] at this
            omega
          simp only [hp, if_true]
          exact ⟨_, rfl⟩
        | exiting => exact ⟨_, rfl⟩
  · exact absurd hm hne

theorem no_step_returned {n : Int} {s : WalkState} (hc : CountInv n s)
    (hm : s.main = .returned) (i : Nat) : step s i = none := by
  cases i with
  | zero => simp only [step, WalkAndCollect, hm]
  | succ k => simp only [step, walk, hc.late hm, List.drop_nil]

mutual
theorem collectNode_ok (p : Path) :
    (x : Node) → okNode x = true → collectNode p x = filterNode (fun x => !x.IsDir) p x
  | .file k, _ => by simp [collectNode, filterNode, Node.IsDir]
  | .dir r es, h => by
    simp only [okNode, Bool.and_eq_true] at h
    obtain ⟨rfl, hes⟩ := h
    simp [collectNode, filterNode, Node.IsDir, collectEntries_ok p es hes]
theorem collectEntries_ok (d : Path) :
    (es : List (String × Option Node)) → okEntries es = true →
      collectEntries d es = filterEntries (fun x => !x.IsDir) d es
  | [], _ => by simp [collectEntries, filterEntries]
  | (_, none) :: _, h => by simp [okEntries] at h
  | (n, some x) :: rest, h => by
    simp only [okEntries, Bool.and_eq_true] at h
    have hx : errOf (some x) = false := by
      cases x with
      | file k => rfl
      | dir r es => simp only [okNode, Bool.and_eq_true] at h; simp [errOf, h.1.1]
    simp [collectEntries, filterEntries, hx, collectNode_ok (child d n) x h.1,
      collectEntries_ok d rest h.2]
end

mutual
theorem collectNode_sub (p q : Path) :
    (x : Node) → q ∈ collectNode p x → q ∈ filterNode (fun x => !x.IsDir) p x
  | .file k, h => by simpa [collectNode, filterNode, Node.IsDir] using h
  | .dir false es, h => by simp [collectNode] at h
  | .dir true es, h => by
    simp only [collectNode] at h
    simpa [filterNode, Node.IsDir] using collectEntries_sub p q es h
theorem collectEntries_sub (d q : Path) :
    (es : List (String × Option Node)) → q ∈ collectEntries d es →
      q ∈ filterEntries (fun x => !x.IsDir) d es
  | [], h => by simp [collectEntries] at h
  | (_, none) :: _, h => by simp [collectEntries] at h
  | (n, some x) :: rest, h => by
    simp only [collectEntries] at h
    split at h
    · simp at h
    · simp only [List.mem_append] at h
      simp only [filterEntries, List.mem_append]
      rcases h with h | h
      · exact Or.inl (collectNode_sub (child d n) q x h)
      · exact Or.inr (collectEntries_sub d q rest h)
end

mutual
theorem filterNode_below (f : Node → Bool) (p q : Path) :
    (x : Node) → q ∈ filterNode f p x → p <+: q
  | .file k, h => by
    simp only [filterNode] at h
    split at h
    · simp only [List.mem_singleton] at h; exact h ▸ List.prefix_refl _
    · simp at h
  | .dir r es, h => by
    simp only [filterNode, List.mem_append] at h
    rcases h with h | h
    · split at h
      · simp only [List.mem_singleton] at h; exact h ▸ List.prefix_refl _
      · simp at h
    · obtain ⟨n, _, hn⟩ := filterEntries_below f p q es h
      exact (List.prefix_append p [n]).trans hn
theorem filterEntries_below (f : Node → Bool) (d q : Path) :
    (es : List (String × Option Node)) → q ∈ filterEntries f d es →
      ∃ n, n ∈ es.map Prod.fst ∧ child d n <+: q
  | [], h => by simp [filterEntries] at h
  | (_, none) :: rest, h => by
    simp only [filterEntries] at h
    obtain ⟨n, hn, hp⟩ := filterEntries_below f d q rest h
    exact ⟨n, by simp [hn], hp⟩
  | (n, some x) :: rest, h => by
    simp only [filterEntries, List.mem_append] at h
    rcases h with h | h
    · exact ⟨n, by simp, filterNode_below f (child d n) q x h⟩
    · obtain ⟨n', hn, hp⟩ := filterEntries_below f d q rest h
      exact ⟨n', by simp [hn], hp⟩
end

theorem child_prefix_inj {d q : Path} {n n' : String} (h : child d n <+: q)
    (h' : child d n' <+: q) : n = n' := by
  have := List.prefix_of_prefix_length_le h h' (by simp [child])
  have := List.IsPrefix.eq_of_length this (by simp [child])
  simpa [child] using this

theorem child_not_above (d : Path) (n : String) : ¬ child d n <+: d := by
  intro h
  have := h.length_le
  simp [child] at this

mutual
theorem filterNode_disjoint (p q : Path) :
    (x : Node) → uniqueNode x = true → q ∈ filterNode (fun x => !x.IsDir) p x →
      q ∈ filterNode Node.IsDir p x → False
  | .file k, _, _, h => by simp [filterNode, Node.IsDir] at h
  | .dir r es, hu, h1, h2 => by
    simp only [uniqueNode] at hu
    simp only [filterNode, Node.IsDir, Bool.not_true, Bool.false_eq_true, if_false,
      List.nil_append, if_true, List.singleton_append, List.mem_cons] at h1 h2
    rcases h2 with rfl | h2
    · obtain ⟨n, _, hn⟩ := filterEntries_below _ _ _ es h1
      exact child_not_above _ _ hn
    · exact filterEntries_disjoint p q es hu h1 h2
theorem filterEntries_disjoint (d q : Path) :
    (es : List (String × Option Node)) → uniqueEntries es = true →
      q ∈ filterEntries (fun x => !x.IsDir) d es → q ∈ filterEntries Node.IsDir d es → False
  | [], _, h, _ => by simp [filterEntries] at h
  | (_, none) :: rest, hu, h1, h2 => by
    simp only [uniqueEntries, Bool.and_eq_true] at hu
    simp only [filterEntries] at h1 h2
    exact filterEntries_disjoint d q rest hu.2 h1 h2
  | (n, some x) :: rest, hu, h1, h2 => by
    simp only [uniqueEntries, Bool.and_eq_true, Bool.not_eq_true', List.contains_eq_any_beq,
      List.any_eq_false, beq_iff_eq] at hu
    obtain ⟨⟨hn, hx⟩, hrest⟩ := hu
    simp only [filterEntries, List.mem_append] at h1 h2
    have hfresh : ∀ n', n' ∈ rest.map Prod.fst → child d n' <+: q → child d n <+: q → False := by
      intro n' hn' hp' hp
      have := child_prefix_inj hp hp'
      subst this
      exact hn n hn' rfl
    rcases h1 with h1 | h1 <;> rcases h2 with h2 | h2
    · exact filterNode_disjoint (child d n) q x hx h1 h2
    · obtain ⟨n', hn', hp'⟩ := filterEntries_below _ _ _ rest h2
      exact hfresh n' hn' hp' (filterNode_below _ _ _ x h1)
    · obtain ⟨n', hn', hp'⟩ := filterEntries_below _ _ _ rest h1
      exact hfresh n' hn' hp' (filterNode_below _ _ _ x h2)
    · exact filterEntries_disjoint d q rest hrest h1 h2
end

theorem returned_stays {n : Int} {root : Path} {fs : Option Node} {s s' : WalkState}
    (h : Reachable (walkInit n root fs) s) (hm : s.main = .returned) (h' : Reachable s s') :
    s' = s := by
  induction h' with
  | start => rfl
  | next i _ hstep ih =>
    subst ih
    rw [no_step_returned (reachable_inv h).1 hm i] at hstep
    cases hstep

/-- C7: for every integer `n`, `NewCWalker(n)` makes a permit pool of capacity
`max(n, 1)` that holds that many permits, and in every state of a walk run on
that walker the permits held by goroutines plus the permits in the pool equal
the capacity, so at most `max(n, 1)` goroutines hold a permit. -/
theorem permits_bounded (n : Int) (root : Path) (fs : Option Node) :
    ((NewCWalker n).cap : Int) = max n 1 ∧ (NewCWalker n).pool = (NewCWalker n).cap ∧
    ∀ s, Reachable (walkInit n root fs) s →
      s.w.cap = (NewCWalker n).cap ∧ holders s + s.w.pool = s.w.cap ∧
        (holders s : Int) ≤ max n 1 := by
  have hcap : ((NewCWalker n).cap : Int) = max n 1 := by
    simp only [NewCWalker]
    split <;> rename_i h
    · rw [max_eq_right (by omega)]; rfl
    · rw [max_eq_left (by omega)]; omega
  refine ⟨hcap, rfl, ?_⟩
  intro s hs
  obtain ⟨hc, hp, _, _, _⟩ := (reachable_inv hs).1
  have h1 : s.w.cap = (NewCWalker n).cap := by
    rw [hc]; omega
  exact ⟨h1, hp, by omega⟩

/-- Witness for `permits_bounded`: with two permits, on the tree of the
specification, once the walks of `root` and of `root/a` have both taken a
permit the pool is empty. -/
theorem permits_bounded_witness :
    holders (run (walkInit 2 ["root"] (some specTree)) [0, 0, 1, 1, 1, 1, 2]) = 2 ∧
    (run (walkInit 2 ["root"] (some specTree)) [0, 0, 1, 1, 1, 1, 2]).w.pool = 0 ∧
    holders (run (walkInit 2 ["root"] (some specTree)) [0, 0, 1, 1, 1, 1, 2]) +
      (run (walkInit 2 ["root"] (some specTree)) [0, 0, 1, 1, 1, 1, 2]).w.pool =
      (run (walkInit 2 ["root"] (some specTree)) [0, 0, 1, 1, 1, 1, 2]).w.cap :=
  ⟨by decide, by decide,
    ((permits_bounded 2 ["root"] (some specTree)).2.2 _
      (reachable_run [0, 0, 1, 1, 1, 1, 2] Reachable.start)).2.1⟩

/-- C3: WalkAndCollect is a strict barrier.  In every state of a walk the
counter of the WaitGroup is the number of live goroutines plus the number of
`Add(1)` calls whose goroutine is not created yet, hence at least the number
of live goroutines; from the first action of WalkAndCollect on, the counter is
zero exactly when the walk of the root has been started and no goroutine is
left; and once WalkAndCollect has returned no thread can act any more, so the
collector never changes again. -/
theorem walk_barrier (n : Int) (root : Path) (fs : Option Node) :
    ∀ s, Reachable (walkInit n root fs) s →
      s.w.wg = ((s.tasks.length + (s.tasks.map adds).sum + mainAdds s.main : Nat) : Int) ∧
      (s.tasks.length : Int) ≤ s.w.wg ∧
      (s.main ≠ .entry → (s.w.wg = 0 ↔ s.tasks = [] ∧ s.main ≠ .added)) ∧
      (s.main = .returned → s.w.wg = 0 ∧ s.tasks = [] ∧ (∀ i, step s i = none) ∧
        ∀ s', Reachable s s' → s'.m = s.m) := by
  intro s hs
  have hc := (reachable_inv hs).1
  refine ⟨hc.counter, ?_, ?_, ?_⟩
  · rw [hc.counter]; omega
  · intro hne
    have hctr := hc.counter
    constructor
    · intro hz
      rw [hz] at hctr
      refine ⟨List.length_eq_zero.mp (by omega), ?_⟩
      intro hm
      simp only [hm, mainAdds] at hctr
      omega
    · rintro ⟨ht, hm⟩
      rcases hmm : s.main with _ | _ | _ | _
      · exact absurd hmm hne
      · exact absurd hmm hm
      · simpa [ht, hmm, mainAdds] using hctr
      · simpa [ht, hmm, mainAdds] using hctr
  · intro hm
    have ht := hc.late hm
    refine ⟨?_, ht, no_step_returned hc hm, ?_⟩
    · have := hc.counter
      simpa [ht, hm, mainAdds] using this
    · intro s' hs'
      rw [returned_stays hs hm hs']

/-- Witness for `walk_barrier`: on the tree of the specification, after the
walk of `root` has called `Add(1)` for `root/a` and not yet started its
goroutine, the counter is 2 with one live goroutine. -/
theorem walk_barrier_witness :
    (run (walkInit 2 ["root"] (some specTree)) [0, 0, 1, 1, 1]).w.wg = 2 ∧
    (run (walkInit 2 ["root"] (some specTree)) [0, 0, 1, 1, 1]).tasks.length = 1 ∧
    (((run (walkInit 2 ["root"] (some specTree)) [0, 0, 1, 1, 1]).tasks.length : Nat) : Int) ≤
      (run (walkInit 2 ["root"] (some specTree)) [0, 0, 1, 1, 1]).w.wg :=
  ⟨by decide, by decide,
    (walk_barrier 2 ["root"] (some specTree) _
      (reachable_run [0, 0, 1, 1, 1] Reachable.start)).2.1⟩

/-- C1, as amended: on a tree whose enumeration raises no error and for every
bound `n`, every run of WalkAndCollect started on an empty collector ends
(some thread can act until it returns, and every action lowers `measure`),
and when it has returned the keys of the collector are exactly the paths of
the entries reachable from `root` that are not directories, no key appears
twice, every key is mapped to itself, and, when a path names one entry, no key
is the path of a directory. -/
theorem walk_collects (n : Int) (root : Path) (fs : Option Node)
    (hok : errorFree fs = true) :
    ∀ s, Reachable (walkInit n root fs) s →
      (s.main ≠ .returned → ∃ i s', step s i = some s') ∧
      (∀ i s', step s i = some s' → measure s' < measure s) ∧
      (s.main = .returned →
        (∀ q, q ∈ keys s.m ↔ q ∈ nonDirPaths root fs) ∧ (keys s.m).Nodup ∧
        (∀ e ∈ s.m, e.2 = e.1) ∧
        (uniqueNames fs = true → ∀ q ∈ keys s.m, q ∉ dirPaths root fs)) := by
  intro s hs
  obtain ⟨hc, hk⟩ := reachable_inv hs
  refine ⟨progress_of_inv hc, fun i s' h => measure_step (step_sound h), ?_⟩
  intro hm
  have ht := hc.late hm
  have hset : ∀ q, q ∈ keys s.m ↔ q ∈ nonDirPaths root fs := by
    intro q
    have := hk.mem q
    simp only [pendMain, hm, ht, List.flatMap_nil, List.not_mem_nil, or_false] at this
    rw [← this]
    cases fs with
    | none => simp [errorFree] at hok
    | some x => simp only [collectRoot, nonDirPaths, entryPaths, collectNode_ok root x hok]
  refine ⟨hset, hk.nodup, hk.self, ?_⟩
  intro hu q hq hd
  cases fs with
  | none => simp [errorFree] at hok
  | some x => exact filterNode_disjoint root q x hu ((hset q).mp hq) hd

/-- Witness for `walk_collects`: the scenario of the specification.  With two
permits the walk of `root/{a/file1.txt, a/b/file2.txt, c/file3.txt}` returns
with exactly the three file paths as keys, each once and mapped to itself,
and none of them the path of a directory. -/
theorem walk_collects_witness :
    errorFree (some specTree) = true ∧
    (runFirst 60 (walkInit 2 ["root"] (some specTree))).main = .returned ∧
    (∀ q, q ∈ keys (runFirst 60 (walkInit 2 ["root"] (some specTree))).m ↔
      q ∈ [["root", "a", "b", "file2.txt"], ["root", "a", "file1.txt"],
        ["root", "c", "file3.txt"]]) ∧
    (keys (runFirst 60 (walkInit 2 ["root"] (some specTree))).m).Nodup ∧
    (∀ e ∈ (runFirst 60 (walkInit 2 ["root"] (some specTree))).m, e.2 = e.1) ∧
    (∀ q ∈ keys (runFirst 60 (walkInit 2 ["root"] (some specTree))).m,
      q ∉ dirPaths ["root"] (some specTree)) :=
  have h := (walk_collects 2 ["root"] (some specTree) (by decide) _
    (reachable_runFirst 60 Reachable.start)).2.2 (by decide)
  ⟨by decide, by decide, h.1, h.2.1, h.2.2.1, h.2.2.2 (by decide)⟩

/-- Counterexample to C1 as stated: on the error-free tree
`root/{data.txt, latest}` with `latest` a symbolic link, the walk returns with
`root/latest` as a key, which is not the path of a regular file. -/
theorem walk_collects_regular_fails :
    errorFree (some linkTree) = true ∧
    ∃ s, Reachable (walkInit 1 ["root"] (some linkTree)) s ∧ s.main = .returned ∧
      ¬ (∀ q, q ∈ keys s.m ↔ q ∈ regularPaths ["root"] (some linkTree)) := by
  refine ⟨by decide, runFirst 40 (walkInit 1 ["root"] (some linkTree)),
    reachable_runFirst 40 Reachable.start, by decide, ?_⟩
  intro h
  have h1 : ["root", "latest"] ∈ keys (runFirst 40 (walkInit 1 ["root"] (some linkTree))).m := by
    decide
  have h2 : ["root", "latest"] ∉ regularPaths ["root"] (some linkTree) := by decide
  exact h2 ((h _).mp h1)

/-- C6, as amended: on every tree, with or without enumeration errors, every
path that is a key of the collector in any state of a walk is the path of an
entry that is not a directory, and, when a path names one entry, not the path
of a directory. -/
theorem walk_inserts_nonDir (n : Int) (root : Path) (fs : Option Node) :
    ∀ s, Reachable (walkInit n root fs) s → ∀ q ∈ keys s.m,
      q ∈ nonDirPaths root fs ∧ (uniqueNames fs = true → q ∉ dirPaths root fs) := by
  intro s hs q hq
  have hk := (reachable_inv hs).2
  have hc : q ∈ collectRoot root fs := (hk.mem q).mpr (Or.inl hq)
  cases fs with
  | none => simp [collectRoot] at hc
  | some x =>
    have hn : q ∈ filterNode (fun x => !x.IsDir) root x := collectNode_sub root q x hc
    exact ⟨hn, fun hu hd => filterNode_disjoint root q x hu hn hd⟩

/-- Witness for `walk_inserts_nonDir`: on `root/{ctl.sock, run/}` the key
`root/ctl.sock` of the collector is the path of an entry that is not a
directory. -/
theorem walk_inserts_nonDir_witness :
    ["root", "ctl.sock"] ∈ keys (runFirst 40 (walkInit 3 ["root"] (some sockTree))).m ∧
    ["root", "ctl.sock"] ∈ nonDirPaths ["root"] (some sockTree) ∧
    ["root", "ctl.sock"] ∉ dirPaths ["root"] (some sockTree) :=
  ⟨by decide,
    (walk_inserts_nonDir 3 ["root"] (some sockTree) _
      (reachable_runFirst 40 Reachable.start) _ (by decide)).1,
    (walk_inserts_nonDir 3 ["root"] (some sockTree) _
      (reachable_runFirst 40 Reachable.start) _ (by decide)).2 (by decide)⟩

/-- Counterexample to C6 as stated: on `root/{ctl.sock, run/}` the walk
inserts `root/ctl.sock`, the path of a socket and not of a regular file. -/
theorem walk_inserts_socket :
    ∃ s, Reachable (walkInit 3 ["root"] (some sockTree)) s ∧
      ∃ q ∈ keys s.m, q ∉ regularPaths ["root"] (some sockTree) :=
  ⟨runFirst 40 (walkInit 3 ["root"] (some sockTree)), reachable_runFirst 40 Reachable.start,
    ["root", "ctl.sock"], by decide, by decide⟩

theorem returned_keys {n : Int} {root : Path} {fs : Option Node} {s : WalkState}
    (hs : Reachable (walkInit n root fs) s) (hm : s.main = .returned) :
    ∀ q, q ∈ keys s.m ↔ q ∈ collectRoot root fs := by
  intro q
  obtain ⟨hc, hk⟩ := reachable_inv hs
  have := hk.mem q
  simp only [pendMain, hm, hc.late hm, List.flatMap_nil, List.not_mem_nil, or_false] at this
  exact this.symm

/-- C8 on a failing input: the tree `root/{a.txt, m/n.txt, s/deep.txt, z.txt}`
where the names of the directory `m` cannot be read.  The error is that of
`m`, yet it is the scan of `root`, the parent of `m`, that it stops: for every
bound and every schedule the walk ends and returns with the one key
`root/a.txt`, so the later siblings of `m` are lost, the subdirectory `s` is
never traversed and `root/z.txt` is never inserted.  On the same tree with `m`
readable every walk that has returned holds the four files. -/
theorem unreadable_dir_stops_parent_scan :
    ((runFirst 60 (walkInit 2 ["root"] (some (lockedTree false)))).main = .returned ∧
      keys (runFirst 60 (walkInit 2 ["root"] (some (lockedTree false)))).m =
        [["root", "a.txt"]]) ∧
    (∀ n s, Reachable (walkInit n ["root"] (some (lockedTree false))) s →
      (s.main ≠ .returned → ∃ i s', step s i = some s') ∧
      (∀ i s', step s i = some s' → measure s' < measure s) ∧
      (s.main = .returned → ∀ q, q ∈ keys s.m ↔ q = ["root", "a.txt"])) ∧
    (∀ n s, Reachable (walkInit n ["root"] (some (lockedTree true))) s →
      s.main = .returned →
      ∀ q, q ∈ keys s.m ↔
        q ∈ [["root", "a.txt"], ["root", "m", "n.txt"], ["root", "s", "deep.txt"],
          ["root", "z.txt"]]) := by
  refine ⟨⟨by decide, by decide⟩, ?_, ?_⟩
  · intro n s hs
    refine ⟨progress_of_inv (reachable_inv hs).1, fun i s' h => measure_step (step_sound h), ?_⟩
    intro hm q
    rw [returned_keys hs hm q]
    have h : collectRoot ["root"] (some (lockedTree false)) = [["root", "a.txt"]] := by decide
    rw [h, List.mem_singleton]
  · intro n s hs hm q
    rw [returned_keys hs hm q]
    have h : collectRoot ["root"] (some (lockedTree true)) =
        [["root", "a.txt"], ["root", "m", "n.txt"], ["root", "s", "deep.txt"],
          ["root", "z.txt"]] := by decide
    rw [h]

/-! ### The pool -/

theorem poolStep_sound {s s' : PoolState} {i : Nat} (h : poolStep s i = some s') :
    PoolAct s s' := by
  cases i with
  | zero =>
    simp only [poolStep, poolStepMain] at h
    rcases hm : s.main with _ | k | _ | _ | _
    · simp only [hm, Start] at h
      cases h; exact PoolAct.add s hm
    · cases k with
      | zero =>
        simp only [hm, Start] at h
        cases h; exact PoolAct.started s hm
      | succ k =>
        simp only [hm, Start] at h
        cases h; exact PoolAct.go s k hm
    · simp only [hm, Wait] at h
      split at h
      · cases h; exact PoolAct.close s hm ‹_›
      · cases h
    · simp only [hm, Wait] at h
      split at h
      · cases h; exact PoolAct.ret s hm ‹_›
      · cases h
    · simp only [hm, Wait] at h
      cases h
  | succ k =>
    simp only [poolStep, runCopier] at h
    split at h
    · cases h
    · rename_i w post hd
      have ht : s.workers = s.workers.take k ++ w :: post := by
        rw [← hd, List.take_append_drop]
      split at h
      · split at h
        · cases h; exact PoolAct.exit s _ _ ht ‹_›
        · rename_i hc
          split at h
          · cases h
            exact PoolAct.take s _ _ _ _ ht (by simpa using hc) ‹_› ‹_›
          · cases h
      · cases h; exact PoolAct.work s _ _ _ _ ht

theorem poolInv_init (n : Int) (fs : FS) (batch : List (Path × Path)) :
    PoolInv n (poolInit n fs batch) := by
  refine ⟨?_, ?_, ?_, ?_, ?_, ?_, ?_, ?_⟩
  · simp only [poolInit, NewCCopier]
    split <;> rename_i h
    · rw [max_eq_right (by omega)]
    · rw [max_eq_left (by omega)]
  · simp [poolInit, NewCCopier, pendStart]
  · simp [poolInit, NewCCopier]
  · simp [poolInit, NewCCopier]
  · intro _; rfl
  · intro k h; simp [poolInit] at h
  · intro h; simp [poolInit] at h
  · intro _; rfl

theorem pool_main_late {n : Int} {s : PoolState} (hs : PoolInv n s) {pre post : List Worker}
    {w : Worker} (ht : s.workers = pre ++ w :: post) :
    s.main ≠ .entry ∧ s.main ≠ .returned := by
  constructor
  · intro h; have := hs.entry h; simp [ht] at this
  · intro h; have := hs.returned h; simp [ht] at this

theorem poolInv_step {n : Int} {s s' : PoolState} (hs : PoolInv n s) (h : PoolAct s s') :
    PoolInv n s' := by
  have hs0 := hs
  obtain ⟨hn, hctr, hci, hcq, hentry, hstart, hfeed, hret⟩ := hs
  cases h with
  | add hm =>
    have hw := hentry hm
    refine ⟨hn, ?_, ?_, ?_, ?_, ?_, ?_, ?_⟩
    · simp only [hw, hm, pendStart, List.length_nil] at hctr ⊢
      rw [hctr]; simp
    · simpa [hm] using hci
    · exact hcq
    · intro h; cases h
    · intro k hk; cases hk; simp [hw]
    · intro h; cases h
    · intro h; cases h
  | go k hm =>
    have := hstart _ hm
    refine ⟨hn, ?_, ?_, ?_, ?_, ?_, ?_, ?_⟩
    · simp only [hm, pendStart, List.length_append, List.length_singleton] at hctr ⊢
      rw [hctr]; push_cast; ring
    · simpa [hm] using hci
    · exact hcq
    · intro h; cases h
    · intro k' hk; cases hk; simp only [List.length_append, List.length_singleton]; omega
    · intro h; cases h
    · intro h; cases h
  | started hm =>
    have := hstart _ hm
    refine ⟨hn, ?_, ?_, ?_, ?_, ?_, ?_, ?_⟩
    · simpa [hm, pendStart] using hctr
    · simpa [hm] using hci
    · exact hcq
    · intro h; cases h
    · intro k' hk; cases hk
    · intro _; simpa using this
    · intro h; cases h
  | close hm hq =>
    refine ⟨hn, ?_, ?_, ?_, ?_, ?_, ?_, ?_⟩
    · simpa [hm, pendStart] using hctr
    · simp
    · intro _; exact hq
    · intro h; cases h
    · intro k' hk; cases hk
    · intro h; cases h
    · intro h; cases h
  | ret hm hz =>
    have hw : s.workers = [] := by
      rw [hz] at hctr
      exact List.length_eq_zero.mp (by omega)
    refine ⟨hn, ?_, ?_, ?_, ?_, ?_, ?_, ?_⟩
    · simpa [hm, pendStart] using hctr
    · simpa [hm] using hci
    · exact hcq
    · intro h; cases h
    · intro k' hk; cases hk
    · intro h; cases h
    · intro _; exact hw
  | exit pre post ht hc =>
    have hm := hci.mp hc
    have hne := (pool_main_late hs0 ht).2
    have hm : s.main = .waiting := by rcases hm with h | h; exact h; exact absurd h hne
    refine ⟨hn, ?_, ?_, ?_, ?_, ?_, ?_, ?_⟩
    · simp only [hm, pendStart, ht, List.length_append, List.length_cons] at hctr ⊢
      rw [hctr]; push_cast; ring
    · exact hci
    · exact hcq
    · intro h; simp [hm] at h
    · intro k' hk; simp [hm] at hk
    · intro h; simp [hm] at h
    · intro h; simp [hm] at h
  | take pre post pair rest ht hc hm hq =>
    refine ⟨hn, ?_, ?_, ?_, ?_, ?_, ?_, ?_⟩
    · simpa [hm, pendStart, ht] using hctr
    · exact hci
    · intro h; simp [hc] at h
    · intro h; simp [hm] at h
    · intro k' hk; simp [hm] at hk
    · intro _; simpa [ht] using hfeed hm
    · intro h; simp [hm] at h
  | work pre post st pair ht =>
    obtain ⟨hne1, hne2⟩ := pool_main_late hs0 ht
    refine ⟨hn, ?_, ?_, ?_, ?_, ?_, ?_, ?_⟩
    · simpa [ht] using hctr
    · exact hci
    · exact hcq
    · intro h; exact absurd h hne1
    · intro k' hk; simpa [ht] using hstart k' hk
    · intro h; simpa [ht] using hfeed h
    · intro h; exact absurd h hne2

theorem runBody_cost (fs : FS) (handles : List Path) (st : Stage) (pair : Path × Path) :
    workerCost (runBody fs handles st pair).next < workerCost (.busy st pair) := by
  cases st
  · simp only [runBody]
    by_cases h : canOpen fs pair.1 = true <;> simp [h, workerCost]
  · simp only [runBody]
    cases Stat fs (Dir pair.2) <;> simp [workerCost]
  · simp only [runBody]
    by_cases h : (MkdirAll fs (Dir pair.2)).2 = true <;> simp [h, workerCost]
  · simp only [runBody]
    by_cases h : (Create fs pair.2).2 = true <;> simp [h, workerCost]
  · simp [runBody, workerCost]
  · simp [runBody, workerCost]
  · simp [runBody, workerCost]

theorem poolMeasure_step {s s' : PoolState} (h : PoolAct s s') :
    poolMeasure s' < poolMeasure s := by
  cases h with
  | add hm => simp only [poolMeasure, poolMainCost, hm]; omega
  | go k hm =>
    simp only [poolMeasure, poolMainCost, hm, List.map_append, List.sum_append, List.map_cons,
      List.map_nil, List.sum_cons, List.sum_nil, workerCost]
    omega
  | started hm => simp only [poolMeasure, poolMainCost, hm]; omega
  | close hm hq => simp only [poolMeasure, poolMainCost, hm]; omega
  | ret hm hz => simp only [poolMeasure, poolMainCost, hm]; omega
  | exit pre post ht hc =>
    simp only [poolMeasure, poolMainCost, ht, List.map_append, List.sum_append, List.map_cons,
      List.sum_cons, workerCost]
    omega
  | take pre post pair rest ht hc hm hq =>
    simp only [poolMeasure, poolMainCost, ht, hq, hm, List.map_append, List.sum_append,
      List.map_cons, List.sum_cons, workerCost, List.length_cons]
    omega
  | work pre post st pair ht =>
    have := runBody_cost s.fs s.handles st pair
    simp only [poolMeasure, poolMainCost, ht, List.map_append, List.sum_append,
      List.map_cons, List.sum_cons]
    omega

theorem pool_progress {n : Int} {s : PoolState} (hs : PoolInv n s) (hne : s.main ≠ .returned) :
    ∃ i s', poolStep s i = some s' := by
  have hn1 : 1 ≤ s.c.n := by
    rw [hs.n_eq]
    have : (1 : Int) ≤ max n 1 := le_max_right _ _
    omega
  have first : ∀ w post, s.workers = w :: post →
      (w = .idle → s.c.closed = true ∨ (s.main = .feeding ∧ s.queue ≠ [])) →
      ∃ i s', poolStep s i = some s' := by
    intro w post hw hidle
    refine ⟨1, ?_⟩
    simp only [poolStep, runCopier, hw, List.drop_zero, List.take_zero]
    cases w with
    | busy st pair => exact ⟨_, rfl⟩
    | idle =>
      rcases hidle rfl with hc | ⟨hm, hq⟩
      · simp only [hc, if_true]; exact ⟨_, rfl⟩
      · have hc : s.c.closed = false := by
          cases h : s.c.closed
          · rfl
          · have := hs.closed_iff.mp h; simp [hm] at this
        cases hqq : s.queue with
        | nil => exact absurd hqq hq
        | cons pair rest => simp only [hc, hm]; exact ⟨_, rfl⟩
  rcases hm : s.main with _ | k | _ | _ | _
  · exact ⟨0, by simp only [poolStep, poolStepMain, Start, Wait, hm]; exact ⟨_, rfl⟩⟩
  · cases k with
    | zero => exact ⟨0, by simp only [poolStep, poolStepMain, Start, Wait, hm]; exact ⟨_, rfl⟩⟩
    | succ k => exact ⟨0, by simp only [poolStep, poolStepMain, Start, Wait, hm]; exact ⟨_, rfl⟩⟩
  · cases hq : s.queue with
    | nil => exact ⟨0, by simp only [poolStep, poolStepMain, Start, Wait, hm, hq]; exact ⟨_, rfl⟩⟩
    | cons pair rest =>
      have hlen := hs.feeding hm
      cases hw : s.workers with
      | nil => simp [hw] at hlen; omega
      | cons w post => exact first w post hw (fun _ => Or.inr ⟨hm, by simp [hq]⟩)
  · by_cases hz : s.c.wg = 0
    · exact ⟨0, by simp only [poolStep, poolStepMain, Start, Wait, hm, hz, if_true]; exact ⟨_, rfl⟩⟩
    · cases hw : s.workers with
      | nil =>
        exfalso; apply hz
        have := hs.counter
        simpa [hw, hm, pendStart] using this
      | cons w post =>
        exact first w post hw (fun _ => Or.inl (hs.closed_iff.mpr (Or.inl hm)))
  · exact absurd hm hne

theorem pool_no_step_returned {n : Int} {s : PoolState} (hs : PoolInv n s)
    (hm : s.main = .returned) (i : Nat) : poolStep s i = none := by
  cases i with
  | zero => simp only [poolStep, poolStepMain, Start, Wait, hm]
  | succ k => simp only [poolStep, runCopier, hs.returned hm, List.drop_nil]

theorem poolReachable_inv {n : Int} {fs : FS} {batch : List (Path × Path)} {s : PoolState}
    (h : PoolReachable (poolInit n fs batch) s) : PoolInv n s := by
  induction h with
  | start => exact poolInv_init n fs batch
  | next i _ hstep ih => exact poolInv_step ih (poolStep_sound hstep)

theorem poolReachable_run {s0 : PoolState} (sched : List Nat) :
    ∀ {s : PoolState}, PoolReachable s0 s → PoolReachable s0 (poolRun s sched) := by
  induction sched with
  | nil => intro s h; exact h
  | cons i rest ih =>
    intro s h
    simp only [poolRun]
    split
    · rename_i s' hs
      exact ih (PoolReachable.next i h hs)
    · exact ih h

theorem poolReachable_runFirst {s0 : PoolState} (fuel : Nat) :
    ∀ {s : PoolState}, PoolReachable s0 s → PoolReachable s0 (poolRunFirst fuel s) := by
  induction fuel with
  | zero => intro s h; exact h
  | succ k ih =>
    intro s h
    simp only [poolRunFirst]
    split
    · rename_i s' hs
      exact ih (PoolReachable.next 0 h hs)
    · split
      · rename_i s' hs
        exact ih (PoolReachable.next _ h hs)
      · exact h

theorem set_same (fs : FS) (p : Path) (e : Entry) : fs.set p e p = some e := by
  simp [FS.set]

theorem set_other (fs : FS) {p q : Path} (e : Entry) (h : q ≠ p) : fs.set p e q = fs q := by
  simp [FS.set, h]

theorem mkdirFrom_keeps (q : Path) :
    ∀ (names : List String) (fs : FS) (base : Path), fs q ≠ none →
      (mkdirFrom fs base names).1 q = fs q
  | [], fs, base, _ => rfl
  | n :: rest, fs, base, h => by
    simp only [mkdirFrom]
    split
    · exact mkdirFrom_keeps q rest fs _ h
    · rfl
    · rename_i hnone
      split
      · have hq : q ≠ base ++ [n] := by
          intro hq; rw [hq] at h; exact h hnone
        rw [mkdirFrom_keeps q rest _ _ (by rw [set_other _ _ hq]; exact h), set_other _ _ hq]
      · rfl

theorem Create_keeps (fs : FS) {p q : Path} (h : q ≠ p) : (Create fs p).1 q = fs q := by
  simp only [Create]
  split
  · exact set_other _ _ h
  · rfl
  · split
    · exact set_other _ _ h
    · rfl

theorem ioCopy_keeps (fs : FS) {dst src q : Path} (h : q ≠ dst) :
    (ioCopy fs dst src).1 q = fs q := by
  simp only [ioCopy]
  split
  · exact set_other _ _ h
  · rfl

theorem runBody_keeps (fs : FS) (handles : List Path) (st : Stage) (pair : Path × Path)
    {q : Path} (hq : q ≠ pair.2) (hex : fs q ≠ none) :
    (runBody fs handles st pair).fs q = fs q := by
  cases st
  · simp only [runBody]; split <;> rfl
  · simp only [runBody]; split <;> rfl
  · simp only [runBody]
    split <;> exact mkdirFrom_keeps q _ fs [] hex
  · simp only [runBody]
    split
    · exact Create_keeps fs hq
    · rfl
  · simp only [runBody]; exact ioCopy_keeps fs hq
  · rfl
  · rfl

theorem Dir_append_singleton (base : Path) (n : String) : Dir (base ++ [n]) = base := by
  simp [Dir]

theorem treeFS_set_new {fs : FS} {p : Path} (e : Entry) (ht : TreeFS fs) (hp : p ≠ [])
    (hpar : isDirAt fs (Dir p)) (hnew : fs p = none) : TreeFS (fs.set p e) := by
  obtain ⟨hroot, hall⟩ := ht
  have keep : ∀ q, isDirAt fs q → isDirAt (fs.set p e) q := by
    intro q ⟨w, hw⟩
    have : q ≠ p := by intro h; rw [h, hnew] at hw; cases hw
    exact ⟨w, by rw [set_other _ _ this]; exact hw⟩
  refine ⟨keep _ hroot, ?_⟩
  intro q hq hex
  by_cases hqp : q = p
  · subst hqp; exact keep _ hpar
  · rw [set_other _ _ hqp] at hex
    exact keep _ (hall q hq hex)

theorem treeFS_set_file {fs : FS} {p : Path} {c c' : List Nat} {r w r' w' : Bool}
    (ht : TreeFS fs) (hold : fs p = some (.file c r w)) :
    TreeFS (fs.set p (.file c' r' w')) := by
  obtain ⟨hroot, hall⟩ := ht
  have keep : ∀ q, isDirAt fs q → isDirAt (fs.set p (.file c' r' w')) q := by
    intro q ⟨w, hw⟩
    have : q ≠ p := by intro h; rw [h, hold] at hw; cases hw
    exact ⟨w, by rw [set_other _ _ this]; exact hw⟩
  refine ⟨keep _ hroot, ?_⟩
  intro q hq hex
  by_cases hqp : q = p
  · subst hqp; exact keep _ (hall q hq (by rw [hold]; simp))
  · rw [set_other _ _ hqp] at hex
    exact keep _ (hall q hq hex)

theorem mkdirFrom_tree :
    ∀ (names : List String) (fs : FS) (base : Path), TreeFS fs →
      TreeFS (mkdirFrom fs base names).1
  | [], fs, base, h => h
  | n :: rest, fs, base, h => by
    simp only [mkdirFrom]
    split
    · exact mkdirFrom_tree rest fs _ h
    · exact h
    · rename_i hnone
      split
      · rename_i hbase
        apply mkdirFrom_tree rest
        exact treeFS_set_new _ h (by simp) (by rw [Dir_append_singleton]; exact ⟨_, hbase⟩) hnone
      · exact h

theorem Create_tree {fs : FS} (p : Path) (h : TreeFS fs) : TreeFS (Create fs p).1 := by
  simp only [Create]
  split
  · exact treeFS_set_file h ‹_›
  · exact h
  · rename_i hnone
    split
    · rename_i hd
      exact treeFS_set_new _ h (by simp) ⟨_, hd⟩ hnone
    · exact h

theorem ioCopy_tree {fs : FS} (dst src : Path) (h : TreeFS fs) :
    TreeFS (ioCopy fs dst src).1 := by
  simp only [ioCopy]
  split
  · exact treeFS_set_file h ‹_›
  · exact h

theorem runBody_tree (fs : FS) (handles : List Path) (st : Stage) (pair : Path × Path)
    (h : TreeFS fs) : TreeFS (runBody fs handles st pair).fs := by
  cases st
  · simp only [runBody]; split <;> exact h
  · simp only [runBody]; split <;> exact h
  · simp only [runBody]
    split <;> exact mkdirFrom_tree _ fs [] h
  · simp only [runBody]
    split
    · exact Create_tree _ h
    · exact h
  · simp only [runBody]; exact ioCopy_tree _ _ h
  · exact h
  · exact h

theorem Create_ok_file {fs : FS} {p : Path} (h : (Create fs p).2 = true) :
    isFileAt (Create fs p).1 p = true := by
  simp only [Create] at h ⊢
  split
  · simp [isFileAt, set_same]
  · rename_i h1 h2; simp_all
  · split
    · simp [isFileAt, set_same]
    · simp_all

theorem ioCopy_content {fs : FS} {dst src : Path} {c : List Nat} {r w : Bool}
    (hs : fs src = some (.file c r w)) (hd : isFileAt fs dst = true) :
    hasContent (ioCopy fs dst src).1 dst c := by
  simp only [isFileAt] at hd
  split at hd
  · rename_i c' r' w' hdst
    simp only [ioCopy, hs, hdst]
    exact ⟨_, _, set_same _ _ _⟩
  · cases hd

theorem tree_ancestors {fs : FS} (ht : TreeFS fs) :
    ∀ (p : Path), fs p ≠ none → ∀ q, q <+: p → q ≠ p → isDirAt fs q := by
  intro p
  induction p using List.reverseRecOn with
  | nil =>
    intro _ q hq hne
    exact absurd (List.prefix_nil.mp hq) hne
  | append_singleton base n ih =>
    intro hex q hq hne
    have hbase : isDirAt fs base := by
      have := ht.2 (base ++ [n]) (by simp) hex
      rwa [Dir_append_singleton] at this
    have hqb : q <+: base := by
      rcases List.prefix_concat_iff.mp hq with h | h
      · exact absurd h hne
      · exact h
    by_cases hqe : q = base
    · rw [hqe]; exact hbase
    · exact ih (by obtain ⟨w, hw⟩ := hbase; rw [hw]; simp) q hqb hqe

theorem inflight_split (pre post : List Worker) (w : Worker) :
    inflight (pre ++ w :: post) = inflight pre ++ (w.task ++ inflight post) := by
  simp [inflight, List.flatMap_append, List.flatMap_cons]

theorem task_busy (st : Stage) (p : Path × Path) : (Worker.busy st p).task = [p] := rfl

theorem task_idle : Worker.idle.task = [] := rfl

theorem inflight_append (pre post : List Worker) :
    inflight (pre ++ post) = inflight pre ++ inflight post := by
  simp [inflight, List.flatMap_append]

theorem runBody_account (fs : FS) (handles : List Path) (st : Stage) (pair : Path × Path)
    (f : Path × Path → Bool) :
    (runBody fs handles st pair).next.task.countP f +
      (runBody fs handles st pair).finished.countP f +
      ((runBody fs handles st pair).out.map Diag.pair).countP f = [pair].countP f := by
  cases st
  · simp only [runBody]
    by_cases h : canOpen fs pair.1 = true <;> simp [h, Worker.task, Diag.pair]
  · simp only [runBody]
    cases Stat fs (Dir pair.2) <;> simp [Worker.task, Diag.pair]
  · simp only [runBody]
    by_cases h : (MkdirAll fs (Dir pair.2)).2 = true <;> simp [h, Worker.task, Diag.pair]
  · simp only [runBody]
    by_cases h : (Create fs pair.2).2 = true <;> simp [h, Worker.task, Diag.pair]
  · simp [runBody, Worker.task]
  · simp [runBody, Worker.task]
  · simp [runBody, Worker.task]

theorem runBody_next (fs : FS) (handles : List Path) (st : Stage) (pair : Path × Path)
    (st' : Stage) (p' : Path × Path) (h : (runBody fs handles st pair).next = .busy st' p') :
    p' = pair ∧
    (st' = .copying → st = .creating ∧ (Create fs pair.2).2 = true ∧
      (runBody fs handles st pair).fs = (Create fs pair.2).1) ∧
    (st' = .closingDst → st = .copying ∧
      (runBody fs handles st pair).fs = (ioCopy fs pair.2 pair.1).1) ∧
    (st' = .closingSrc → st = .closingDst ∧ (runBody fs handles st pair).fs = fs) := by
  cases st
  · simp only [runBody] at h ⊢
    by_cases hc : canOpen fs pair.1 = true
    · simp only [hc, if_true, Worker.busy.injEq] at h
      obtain ⟨rfl, rfl⟩ := h
      simp
    · simp [hc] at h
  · simp only [runBody] at h ⊢
    cases hst : Stat fs (Dir pair.2) <;> simp only [hst, Worker.busy.injEq] at h
    · obtain ⟨rfl, rfl⟩ := h; simp
    · obtain ⟨rfl, rfl⟩ := h; simp
    · cases h
  · simp only [runBody] at h ⊢
    by_cases hc : (MkdirAll fs (Dir pair.2)).2 = true
    · simp only [hc, if_true, Worker.busy.injEq] at h
      obtain ⟨rfl, rfl⟩ := h
      simp
    · simp [hc] at h
  · simp only [runBody] at h ⊢
    by_cases hc : (Create fs pair.2).2 = true
    · simp only [hc, if_true, Worker.busy.injEq] at h
      obtain ⟨rfl, rfl⟩ := h
      simp [hc]
    · simp [hc] at h
  · simp only [runBody, Worker.busy.injEq] at h ⊢
    obtain ⟨rfl, rfl⟩ := h
    simp
  · simp only [runBody, Worker.busy.injEq] at h ⊢
    obtain ⟨rfl, rfl⟩ := h
    simp
  · simp [runBody] at h

theorem runBody_finished (fs : FS) (handles : List Path) (st : Stage) (pair p' : Path × Path)
    (h : p' ∈ (runBody fs handles st pair).finished) :
    p' = pair ∧ st = .closingSrc ∧ (runBody fs handles st pair).fs = fs := by
  cases st
  · simp only [runBody] at h; split at h <;> simp at h
  · simp only [runBody] at h; split at h <;> simp at h
  · simp only [runBody] at h; split at h <;> simp at h
  · simp only [runBody] at h; split at h <;> simp at h
  · simp [runBody] at h
  · simp [runBody] at h
  · simp only [runBody, List.mem_singleton] at h
    exact ⟨h, rfl, rfl⟩

theorem copyInv_init (n : Int) (fs : FS) (batch : List (Path × Path)) (src dst : Path)
    (c : List Nat) (e0 : Entry) (ht : TreeFS fs) (hsrc : fs src = some e0) :
    CopyInv batch src dst c e0 (poolInit n fs batch) := by
  refine ⟨?_, ht, hsrc, ?_, ?_⟩
  · intro f; simp [poolInit, inflight]
  · intro st p hp; simp [poolInit] at hp
  · intro p hp; simp [poolInit] at hp

theorem countP_pos_of_mem {l : List (Path × Path)} {p : Path × Path} {f : Path × Path → Bool}
    (hm : p ∈ l) (hf : f p = true) : 0 < l.countP f :=
  List.countP_pos_iff.mpr ⟨p, hm, hf⟩

theorem count_snd_eq (l : List (Path × Path)) (d : Path) :
    (l.map Prod.snd).count d = l.countP (fun p => p.2 == d) := by
  induction l with
  | nil => rfl
  | cons a t ih => simp [List.count_cons, List.countP_cons, ih]

theorem countP_one_unique {f : Path × Path → Bool} :
    ∀ (l : List (Path × Path)), l.countP f = 1 → ∀ a b, a ∈ l → b ∈ l →
      f a = true → f b = true → a = b
  | [], h, _, _, _, _, _, _ => by simp at h
  | x :: t, h, a, b, ha, hb, fa, fb => by
    rw [List.countP_cons] at h
    rcases List.mem_cons.mp ha with rfl | ha' <;> rcases List.mem_cons.mp hb with rfl | hb'
    · rfl
    · have := countP_pos_of_mem hb' fb
      simp only [fa, if_true] at h
      omega
    · have := countP_pos_of_mem ha' fa
      simp only [fb, if_true] at h
      omega
    · have := countP_pos_of_mem ha' fa
      by_cases fx : f x = true
      · simp only [fx, if_true] at h; omega
      · simp only [fx] at h
        exact countP_one_unique t (by simpa using h) a b ha' hb' fa fb

theorem mem_inflight {ws : List Worker} {st : Stage} {p : Path × Path}
    (h : Worker.busy st p ∈ ws) : p ∈ inflight ws := by
  simp only [inflight, List.mem_flatMap]
  exact ⟨_, h, by simp [Worker.task]⟩

theorem copyInv_step {batch : List (Path × Path)} {src dst : Path} {c : List Nat} {e0 : Entry}
    {s s' : PoolState} (hmem : (src, dst) ∈ batch)
    (hdst : (batch.map Prod.snd).count dst = 1) (hnot : src ∉ batch.map Prod.snd)
    (hfile : ∃ r w, e0 = .file c r w)
    (hs : CopyInv batch src dst c e0 s) (h : PoolAct s s') : CopyInv batch src dst c e0 s' := by
  obtain ⟨hacc, htree, hsrc, hstaged, hdone⟩ := hs
  cases h with
  | add hm => exact ⟨hacc, htree, hsrc, hstaged, hdone⟩
  | go k hm =>
    refine ⟨?_, htree, hsrc, ?_, hdone⟩
    · intro f
      simpa [inflight_append, inflight, Worker.task] using hacc f
    · intro st p hp hpd
      simp only [List.mem_append, List.mem_singleton] at hp
      rcases hp with hp | hp
      · exact hstaged st p hp hpd
      · cases hp
  | started hm => exact ⟨hacc, htree, hsrc, hstaged, hdone⟩
  | close hm hq => exact ⟨hacc, htree, hsrc, hstaged, hdone⟩
  | ret hm hz => exact ⟨hacc, htree, hsrc, hstaged, hdone⟩
  | exit pre post ht hc =>
    refine ⟨?_, htree, hsrc, ?_, hdone⟩
    · intro f
      have := hacc f
      rw [ht, inflight_split] at this
      rw [inflight_append]
      simp only [List.countP_append, task_idle, List.countP_nil] at this ⊢
      omega
    · intro st p hp hpd
      refine hstaged st p ?_ hpd
      simp only [List.mem_append] at hp
      simp only [ht, List.mem_append, List.mem_cons]
      tauto
  | take pre post pair rest ht hc hm hq =>
    refine ⟨?_, htree, hsrc, ?_, hdone⟩
    · intro f
      have := hacc f
      rw [ht, hq, inflight_split] at this
      rw [inflight_split]
      simp only [List.countP_append, task_idle, task_busy, List.countP_nil,
        List.countP_cons] at this ⊢
      omega
    · intro st p hp hpd
      simp only [List.mem_append, List.mem_cons] at hp
      rcases hp with hp | hp | hp
      · exact hstaged st p (by simp [ht, hp]) hpd
      · simp only [Worker.busy.injEq] at hp
        obtain ⟨rfl, rfl⟩ := hp
        refine ⟨?_, ?_⟩
        · intro h; cases h
        · rintro (h | h) <;> cases h
      · exact hstaged st p (by simp [ht, hp]) hpd
  | work pre post st p ht =>
    have hold : Worker.busy st p ∈ s.workers := by simp [ht]
    -- the pair at work belongs to the batch
    have hpb : p ∈ batch := by
      have h1 := hacc (fun q => q == p)
      have h2 : 0 < (inflight s.workers).countP (fun q => q == p) :=
        countP_pos_of_mem (mem_inflight hold) (by simp)
      have h3 : 0 < batch.countP (fun q => q == p) := by omega
      obtain ⟨q, hq, hqp⟩ := List.countP_pos_iff.mp h3
      have : q = p := by simpa using hqp
      exact this ▸ hq
    have hpsrc : src ≠ p.2 := by
      intro h
      exact hnot (List.mem_map.mpr ⟨p, hpb, h.symm⟩)
    -- at most one pair of the pool has destination `dst`
    have hone : batch.countP (fun q => q.2 == dst) = 1 := by
      rw [← count_snd_eq]; exact hdst
    have hsplit := hacc (fun q => q.2 == dst)
    rw [ht, inflight_split, hone] at hsplit
    simp only [List.countP_append, task_busy] at hsplit
    have hexcl : p.2 = dst →
        (∀ st' p', Worker.busy st' p' ∈ pre ++ post → p'.2 ≠ dst) ∧
        (∀ p' ∈ s.finished, p'.2 ≠ dst) := by
      intro hpd
      have h1 : [p].countP (fun q => q.2 == dst) = 1 := by simp [hpd]
      rw [h1] at hsplit
      constructor
      · intro st' p' hm' hd'
        have hin : p' ∈ inflight pre ++ inflight post := by
          rw [← inflight_append]; exact mem_inflight hm'
        rcases List.mem_append.mp hin with hin | hin
        · have := countP_pos_of_mem (f := fun q => q.2 == dst) hin (by simp [hd'])
          omega
        · have := countP_pos_of_mem (f := fun q => q.2 == dst) hin (by simp [hd'])
          omega
      · intro p' hm' hd'
        have := countP_pos_of_mem (f := fun q => q.2 == dst) hm' (by simp [hd'])
        omega
    have hpeq : p.2 = dst → p = (src, dst) := by
      intro hpd
      exact countP_one_unique batch hone p (src, dst) hpb hmem (by simp [hpd]) (by simp)
    have hkeep : p.2 ≠ dst → s.fs dst ≠ none →
        (runBody s.fs s.handles st p).fs dst = s.fs dst := by
      intro hne hex
      exact runBody_keeps s.fs s.handles st p (fun h => hne h.symm) hex
    have hkeepF : p.2 ≠ dst → isFileAt s.fs dst = true →
        isFileAt (runBody s.fs s.handles st p).fs dst = true := by
      intro hne hf
      have hex : s.fs dst ≠ none := by
        intro h0; simp [isFileAt, h0] at hf
      simp only [isFileAt, hkeep hne hex] at hf ⊢
      exact hf
    have hkeepC : p.2 ≠ dst → hasContent s.fs dst c →
        hasContent (runBody s.fs s.handles st p).fs dst c := by
      intro hne ⟨r, w, hf⟩
      exact ⟨r, w, by rw [hkeep hne (by rw [hf]; simp), hf]⟩
    refine ⟨?_, runBody_tree _ _ _ _ htree, ?_, ?_, ?_⟩
    · intro f
      have h1 := hacc f
      have h2 := runBody_account s.fs s.handles st p f
      rw [ht, inflight_split] at h1
      rw [inflight_split]
      simp only [List.countP_append, task_busy, List.map_append] at h1 h2 ⊢
      omega
    · show (runBody s.fs s.handles st p).fs src = some e0
      rw [runBody_keeps s.fs s.handles st p hpsrc (by rw [hsrc]; simp), hsrc]
    · intro st' p' hm' hd'
      show (st' = .copying → isFileAt (runBody s.fs s.handles st p).fs dst = true) ∧
        ((st' = .closingDst ∨ st' = .closingSrc) →
          hasContent (runBody s.fs s.handles st p).fs dst c)
      have hm'' : Worker.busy st' p' ∈ pre ++ post ∨
          (runBody s.fs s.handles st p).next = Worker.busy st' p' := by
        have : Worker.busy st' p' ∈ pre ++ (runBody s.fs s.handles st p).next :: post := hm'
        simp only [List.mem_append, List.mem_cons] at this ⊢
        rcases this with h | h | h
        · exact Or.inl (Or.inl h)
        · exact Or.inr h.symm
        · exact Or.inl (Or.inr h)
      rcases hm'' with hin | hnext
      · have hne : p.2 ≠ dst := fun hpd => (hexcl hpd).1 st' p' hin hd'
        have hinold : Worker.busy st' p' ∈ s.workers := by
          simp only [List.mem_append] at hin
          simp only [ht, List.mem_append, List.mem_cons]
          tauto
        obtain ⟨h1, h2⟩ := hstaged st' p' hinold hd'
        exact ⟨fun h => hkeepF hne (h1 h), fun h => hkeepC hne (h2 h)⟩
      · obtain ⟨rfl, hcopy, hcd, hcs⟩ := runBody_next _ _ _ _ _ _ hnext
        have hp := hpeq hd'
        constructor
        · intro hst
          obtain ⟨_, hok, hfs⟩ := hcopy hst
          rw [hfs, ← hd']
          exact Create_ok_file hok
        · intro hst
          rcases hst with hst | hst
          · obtain ⟨rfl, hfs⟩ := hcd hst
            have hf := (hstaged .copying p' hold hd').1 rfl
            obtain ⟨r, w, rfl⟩ := hfile
            rw [hfs, hp]
            exact ioCopy_content hsrc hf
          · obtain ⟨rfl, hfs⟩ := hcs hst
            rw [hfs]
            exact (hstaged .closingDst p' hold hd').2 (Or.inl rfl)
    · intro p' hm' hd'
      show hasContent (runBody s.fs s.handles st p).fs dst c
      have hm'' : p' ∈ s.finished ∨ p' ∈ (runBody s.fs s.handles st p).finished :=
        List.mem_append.mp hm'
      rcases hm'' with hin | hnew
      · have hne : p.2 ≠ dst := fun hpd => (hexcl hpd).2 p' hin hd'
        exact hkeepC hne (hdone p' hin hd')
      · obtain ⟨rfl, rfl, hfs⟩ := runBody_finished _ _ _ _ _ hnew
        rw [hfs]
        exact (hstaged .closingSrc p' hold hd').2 (Or.inr rfl)

theorem treeFS_fsOf (l : List (Path × Entry)) (h : checkTree l = true) : TreeFS (fsOf l) := by
  simp only [checkTree, Bool.and_eq_true, List.all_eq_true, Bool.or_eq_true, beq_iff_eq] at h
  obtain ⟨hroot, hall⟩ := h
  constructor
  · split at hroot
    · exact ⟨_, ‹_›⟩
    · cases hroot
  · intro p hp hex
    simp only [fsOf] at hex
    cases hf : l.find? (fun e => e.1 == p) with
    | none => simp [hf] at hex
    | some e =>
      have heq : e.1 = p := by simpa using List.find?_some hf
      have hmem : e ∈ l := List.mem_of_find?_eq_some hf
      rcases hall e hmem with h0 | h1
      · exact absurd (heq ▸ h0) hp
      · rw [heq] at h1
        split at h1
        · exact ⟨_, ‹_›⟩
        · cases h1

theorem poolReachable_copyInv {n : Int} {fs0 : FS} {batch : List (Path × Path)}
    {src dst : Path} {c : List Nat} {r0 w0 : Bool} (htree : TreeFS fs0)
    (hmem : (src, dst) ∈ batch) (hsrc : fs0 src = some (.file c r0 w0))
    (hdst : (batch.map Prod.snd).count dst = 1) (hnot : src ∉ batch.map Prod.snd)
    {s : PoolState} (h : PoolReachable (poolInit n fs0 batch) s) :
    CopyInv batch src dst c (.file c r0 w0) s := by
  induction h with
  | start => exact copyInv_init n fs0 batch src dst c _ htree hsrc
  | next i _ hstep ih =>
    exact copyInv_step hmem hdst hnot ⟨_, _, rfl⟩ ih (poolStep_sound hstep)

theorem mkdirFrom_change (q : Path) :
    ∀ (names : List String) (fs : FS) (base : Path),
      (mkdirFrom fs base names).1 q = fs q ∨
      (fs q = none ∧ (mkdirFrom fs base names).1 q = some (.dir true) ∧ q <+: base ++ names)
  | [], fs, base => Or.inl rfl
  | n :: rest, fs, base => by
    have happ : (base ++ [n]) ++ rest = base ++ n :: rest := by simp
    simp only [mkdirFrom]
    split
    · rcases mkdirFrom_change q rest fs (base ++ [n]) with h | ⟨h1, h2, h3⟩
      · exact Or.inl h
      · exact Or.inr ⟨h1, h2, happ ▸ h3⟩
    · exact Or.inl rfl
    · rename_i hnone
      split
      · rcases mkdirFrom_change q rest (fs.set (base ++ [n]) (.dir true)) (base ++ [n]) with
          h | ⟨h1, h2, h3⟩
        · by_cases hq : q = base ++ [n]
          · refine Or.inr ⟨hq ▸ hnone, ?_, ?_⟩
            · rw [h, hq, set_same]
            · rw [hq]; exact ⟨rest, happ⟩
          · exact Or.inl (by rw [h, set_other _ _ hq])
        · have hq : q ≠ base ++ [n] := by
            intro hq; rw [hq, set_same] at h1; cases h1
          rw [set_other _ _ hq] at h1
          exact Or.inr ⟨h1, h2, happ ▸ h3⟩
      · exact Or.inl rfl

theorem Create_change (fs : FS) (p q : Path) :
    (Create fs p).1 q = fs q ∨
    (q = p ∧ ∃ c r w, (Create fs p).1 q = some (.file c r w) ∧
      ((fs q = none ∧ w = true) ∨ ∃ c0, fs q = some (.file c0 r w))) := by
  by_cases hq : q = p
  · rw [hq]
    simp only [Create]
    split
    · rename_i c0 r hf
      exact Or.inr ⟨trivial, [], r, true, set_same _ _ _, Or.inr ⟨c0, hf⟩⟩
    · exact Or.inl rfl
    · rename_i hnone
      split
      · exact Or.inr ⟨trivial, [], true, true, set_same _ _ _, Or.inl ⟨hnone, rfl⟩⟩
      · exact Or.inl rfl
  · exact Or.inl (Create_keeps fs hq)

theorem ioCopy_change (fs : FS) (dst src q : Path) :
    (ioCopy fs dst src).1 q = fs q ∨
    (q = dst ∧ ∃ c r w, (ioCopy fs dst src).1 q = some (.file c r w) ∧
      ((fs q = none ∧ w = true) ∨ ∃ c0, fs q = some (.file c0 r w))) := by
  by_cases hq : q = dst
  · rw [hq]
    simp only [ioCopy]
    split
    · rename_i c r0 w0 c0 r w hs hd
      exact Or.inr ⟨trivial, c, r, w, set_same _ _ _, Or.inr ⟨c0, hd⟩⟩
    · exact Or.inl rfl
  · exact Or.inl (ioCopy_keeps fs hq)

/-- How one statement of the loop body can change what is at a path: not at
all, by creating a writable directory above the destination, or by creating
or rewriting the destination file. -/
theorem runBody_change (fs : FS) (handles : List Path) (st : Stage) (pair : Path × Path)
    (q : Path) :
    (runBody fs handles st pair).fs q = fs q ∨
    (fs q = none ∧ (runBody fs handles st pair).fs q = some (.dir true) ∧ q <+: Dir pair.2) ∨
    (q = pair.2 ∧ ∃ c r w, (runBody fs handles st pair).fs q = some (.file c r w) ∧
      ((fs q = none ∧ w = true) ∨ ∃ c0, fs q = some (.file c0 r w))) := by
  cases st
  · simp only [runBody]; split <;> exact Or.inl rfl
  · simp only [runBody]; split <;> exact Or.inl rfl
  · have h := mkdirFrom_change q (Dir pair.2) fs []
    simp only [List.nil_append] at h
    simp only [runBody]
    split
    · rcases h with h | h
      · exact Or.inl h
      · exact Or.inr (Or.inl h)
    · rcases h with h | h
      · exact Or.inl h
      · exact Or.inr (Or.inl h)
  · by_cases hc : (Create fs pair.2).2 = true
    · have hfs : (runBody fs handles .creating pair).fs = (Create fs pair.2).1 := by
        simp [runBody, hc]
      rw [hfs]
      rcases Create_change fs pair.2 q with h | h
      · exact Or.inl h
      · exact Or.inr (Or.inr h)
    · have hfs : (runBody fs handles .creating pair).fs = fs := by
        simp [runBody, hc]
      rw [hfs]
      exact Or.inl rfl
  · have hfs : (runBody fs handles .copying pair).fs = (ioCopy fs pair.2 pair.1).1 := rfl
    rw [hfs]
    rcases ioCopy_change fs pair.2 pair.1 q with h | h
    · exact Or.inl h
    · exact Or.inr (Or.inr h)
  · exact Or.inl rfl
  · exact Or.inl rfl

theorem mkdirFrom_ok_dir :
    ∀ (names : List String) (fs : FS) (base : Path), (mkdirFrom fs base names).2 = true →
      isDirAt fs base → isDirAt (mkdirFrom fs base names).1 (base ++ names)
  | [], fs, base, _, hb => by simpa [mkdirFrom] using hb
  | n :: rest, fs, base, hok, hb => by
    have happ : (base ++ [n]) ++ rest = base ++ n :: rest := by simp
    simp only [mkdirFrom] at hok ⊢
    split at hok
    · rename_i w hd
      exact happ ▸ mkdirFrom_ok_dir rest fs _ hok ⟨_, hd⟩
    · cases hok
    · rename_i hnone
      split at hok
      · rename_i hbase
        exact happ ▸ mkdirFrom_ok_dir rest _ _ hok ⟨_, set_same _ _ _⟩
      · cases hok

theorem mkdirFrom_succeeds :
    ∀ (names : List String) (fs : FS) (base : Path), isDirAt fs base →
      (∀ q, q <+: base ++ names → fs q = none ∨ isDirAt fs q) →
      (∀ q n, (q ++ [n]) <+: base ++ names → fs (q ++ [n]) = none →
        fs q = none ∨ fs q = some (.dir true)) →
      (mkdirFrom fs base names).2 = true
  | [], fs, base, _, _, _ => rfl
  | n :: rest, fs, base, hb, h1, h2 => by
    have happ : (base ++ [n]) ++ rest = base ++ n :: rest := by simp
    have hpre : (base ++ [n]) <+: base ++ n :: rest := ⟨rest, happ⟩
    simp only [mkdirFrom]
    split
    · rename_i w hd
      exact mkdirFrom_succeeds rest fs _ ⟨_, hd⟩ (happ ▸ h1) (happ ▸ h2)
    · rename_i c r w hf
      rcases h1 _ hpre with h | ⟨w', h⟩
      · rw [h] at hf; cases hf
      · rw [h] at hf; cases hf
    · rename_i hnone
      have hbt : fs base = some (.dir true) := by
        rcases h2 base n hpre hnone with h | h
        · obtain ⟨w, hw⟩ := hb; rw [hw] at h; cases h
        · exact h
      simp only [hbt]
      apply mkdirFrom_succeeds rest _ _ ⟨_, set_same _ _ _⟩
      · intro q hq
        by_cases hqe : q = base ++ [n]
        · exact Or.inr ⟨true, by rw [hqe, set_same]⟩
        · rcases h1 q (happ ▸ hq) with h | ⟨w, h⟩
          · exact Or.inl (by rw [set_other _ _ hqe]; exact h)
          · exact Or.inr ⟨w, by rw [set_other _ _ hqe]; exact h⟩
      · intro q m hq hn
        have hqm : q ++ [m] ≠ base ++ [n] := by
          intro h; rw [h, set_same] at hn; cases hn
        rw [set_other _ _ hqm] at hn
        by_cases hqe : q = base ++ [n]
        · exact Or.inr (by rw [hqe, set_same])
        · rw [set_other _ _ hqe]
          exact h2 q m (happ ▸ hq) hn

theorem Stat_not_otherErr (fs : FS) (d : Path)
    (h : ∀ q, q <+: d → fs q = none ∨ isDirAt fs q) : Stat fs d ≠ .otherErr := by
  simp only [Stat]
  split
  · simp
  · have : d.inits.any (isFileAt fs) = false := by
      rw [List.any_eq_false]
      intro q hq
      rcases h q ((List.mem_inits _ _).mp hq) with h0 | ⟨w, h0⟩ <;> simp [isFileAt, h0]
    simp [this]

theorem Create_succeeds (fs : FS) (dst : Path) (hne : dst ≠ [])
    (hpar : fs dst = none → fs (Dir dst) = some (.dir true))
    (ht : fs dst = none ∨ ∃ c r, fs dst = some (.file c r true)) :
    (Create fs dst).2 = true := by
  simp only [Create]
  rcases ht with h | ⟨c, r, h⟩
  · simp only [h, hpar h]
    cases dst with
    | nil => exact absurd rfl hne
    | cons a t => rfl
  · simp only [h]

theorem runBody_out (fs : FS) (handles : List Path) (st : Stage) (pair : Path × Path) :
    ∀ d ∈ (runBody fs handles st pair).out, d.pair = pair := by
  intro d hd
  cases st
  · simp only [runBody] at hd; split at hd <;> simp at hd; subst hd; rfl
  · simp only [runBody] at hd; split at hd <;> simp at hd; subst hd; rfl
  · simp only [runBody] at hd; split at hd <;> simp at hd; subst hd; rfl
  · simp only [runBody] at hd; split at hd <;> simp at hd; subst hd; rfl
  · simp [runBody] at hd
  · simp [runBody] at hd
  · simp [runBody] at hd

theorem copyInv_mem {batch : List (Path × Path)} {src dst : Path} {c : List Nat} {e0 : Entry}
    {s : PoolState} (hc : CopyInv batch src dst c e0 s) {st : Stage} {p : Path × Path}
    (hold : Worker.busy st p ∈ s.workers) : p ∈ batch := by
  have h1 := hc.account (fun q => q == p)
  have h2 : 0 < (inflight s.workers).countP (fun q => q == p) :=
    countP_pos_of_mem (mem_inflight hold) (by simp)
  have h3 : 0 < batch.countP (fun q => q == p) := by omega
  obtain ⟨q, hq, hqp⟩ := List.countP_pos_iff.mp h3
  have : q = p := by simpa using hqp
  exact this ▸ hq

theorem copyInv_unique {batch : List (Path × Path)} {src dst : Path} {c : List Nat}
    {e0 : Entry} {s : PoolState} (hmem : (src, dst) ∈ batch)
    (hdst : (batch.map Prod.snd).count dst = 1) (hc : CopyInv batch src dst c e0 s)
    {st : Stage} {p : Path × Path} (hold : Worker.busy st p ∈ s.workers) (hpd : p.2 = dst) :
    p = (src, dst) := by
  have hone : batch.countP (fun q => q.2 == dst) = 1 := by
    rw [← count_snd_eq]; exact hdst
  exact countP_one_unique batch hone p (src, dst) (copyInv_mem hc hold) hmem (by simp [hpd])
    (by simp)

theorem Stat_found {fs : FS} {d : Path} (h : Stat fs d = .found) : fs d ≠ none := by
  simp only [Stat] at h
  split at h
  · rename_i e he; rw [he]; simp
  · split at h <;> cases h

theorem runBody_to_creating (fs : FS) (handles : List Path) (st : Stage)
    (pair p' : Path × Path) (h : (runBody fs handles st pair).next = .busy .creating p') :
    (st = .statting ∧ Stat fs (Dir pair.2) = .found ∧ (runBody fs handles st pair).fs = fs) ∨
    (st = .making ∧ (MkdirAll fs (Dir pair.2)).2 = true ∧
      (runBody fs handles st pair).fs = (MkdirAll fs (Dir pair.2)).1) := by
  cases st
  · simp only [runBody] at h
    split at h <;> simp at h
  · simp only [runBody] at h ⊢
    cases hst : Stat fs (Dir pair.2) <;> simp only [hst] at h ⊢
    · simp
    · simp at h
    · simp at h
  · simp only [runBody] at h ⊢
    by_cases hc : (MkdirAll fs (Dir pair.2)).2 = true
    · simp [hc]
    · simp [hc] at h
  · simp only [runBody] at h
    split at h <;> simp at h
  · simp [runBody] at h
  · simp [runBody] at h
  · simp [runBody] at h

theorem runBody_quiet (fs : FS) (handles : List Path) (st : Stage) (pair : Path × Path)
    (hopen : canOpen fs pair.1 = true) (hstat : Stat fs (Dir pair.2) ≠ .otherErr)
    (hmk : (MkdirAll fs (Dir pair.2)).2 = true)
    (hcr : st = .creating → (Create fs pair.2).2 = true) :
    (runBody fs handles st pair).out = [] := by
  cases st
  · simp [runBody, hopen]
  · simp only [runBody]
    cases hst : Stat fs (Dir pair.2)
    · rfl
    · rfl
    · exact absurd hst hstat
  · simp [runBody, hmk]
  · simp [runBody, hcr rfl]
  · rfl
  · rfl
  · rfl

theorem isDirAt_stays (fs : FS) (handles : List Path) (st : Stage) (pair : Path × Path)
    {q : Path} (h : isDirAt fs q) : isDirAt (runBody fs handles st pair).fs q := by
  obtain ⟨w, hw⟩ := h
  rcases runBody_change fs handles st pair q with h1 | ⟨h2, _⟩ | ⟨_, c, r, w', _, h3⟩
  · exact ⟨w, by rw [h1, hw]⟩
  · rw [hw] at h2; cases h2
  · rcases h3 with ⟨h3, _⟩ | ⟨c0, h3⟩ <;> · rw [hw] at h3; cases h3

theorem dir_not_below_self {dst : Path} (hne : dst ≠ []) : ¬ dst <+: Dir dst := by
  intro h
  have h1 := h.length_le
  have h2 : dst.length ≠ 0 := fun h0 => hne (List.length_eq_zero.mp h0)
  simp only [Dir, List.length_dropLast] at h1
  omega

theorem readyInv_step {batch : List (Path × Path)} {src dst : Path} {c : List Nat}
    {e0 : Entry} {s s' : PoolState} (hmem : (src, dst) ∈ batch)
    (hdst : (batch.map Prod.snd).count dst = 1) (hread : ∃ w, e0 = .file c true w)
    (hfree : ∀ p ∈ batch, p.2 ≠ dst → ¬ p.2 <+: dst ∧ ¬ dst <+: p.2)
    (hc : CopyInv batch src dst c e0 s) (hr : ReadyInv dst s) (h : PoolAct s s') :
    ReadyInv dst s' := by
  obtain ⟨hanc, hwr, htarget, hparent, hquiet⟩ := hr
  cases h with
  | add hm => exact ⟨hanc, hwr, htarget, hparent, hquiet⟩
  | go k hm =>
    refine ⟨hanc, hwr, htarget, ?_, hquiet⟩
    intro p hp hpd
    simp only [List.mem_append, List.mem_singleton] at hp
    rcases hp with hp | hp
    · exact hparent p hp hpd
    · cases hp
  | started hm => exact ⟨hanc, hwr, htarget, hparent, hquiet⟩
  | close hm hq => exact ⟨hanc, hwr, htarget, hparent, hquiet⟩
  | ret hm hz => exact ⟨hanc, hwr, htarget, hparent, hquiet⟩
  | exit pre post ht hcl =>
    refine ⟨hanc, hwr, htarget, ?_, hquiet⟩
    intro p hp hpd
    refine hparent p ?_ hpd
    simp only [List.mem_append] at hp
    simp only [ht, List.mem_append, List.mem_cons]
    tauto
  | take pre post pair rest ht hcl hm hq =>
    refine ⟨hanc, hwr, htarget, ?_, hquiet⟩
    intro p hp hpd
    simp only [List.mem_append, List.mem_cons] at hp
    rcases hp with hp | hp | hp
    · exact hparent p (by simp [ht, hp]) hpd
    · simp only [Worker.busy.injEq] at hp
      cases hp.1
    · exact hparent p (by simp [ht, hp]) hpd
  | work pre post st p ht =>
    have hold : Worker.busy st p ∈ s.workers := by simp [ht]
    have hpb : p ∈ batch := copyInv_mem hc hold
    have hroot : isDirAt s.fs [] := hc.tree.1
    have hne : dst ≠ [] := by
      intro h0
      obtain ⟨w, hw⟩ := hroot
      rw [h0] at htarget
      rcases htarget with h | ⟨c', r', h⟩ <;> · rw [hw] at h; cases h
    have hdirp : Dir dst <+: dst := List.dropLast_prefix dst
    have hdirne : Dir dst ≠ dst := by
      intro h0
      have hlen := congrArg List.length h0
      have h2 : dst.length ≠ 0 := fun h1 => hne (List.length_eq_zero.mp h1)
      simp only [Dir, List.length_dropLast] at hlen
      omega
    -- a path above `dst` is not the destination of the pair at work
    have habove : ∀ q, q <+: dst → q ≠ dst → q ≠ p.2 := by
      intro q hq hqd hqp
      have hpd : p.2 ≠ dst := fun h0 => hqd (hqp.trans h0)
      exact (hfree p hpb hpd).1 (hqp ▸ hq)
    have hanc' : ∀ q, q <+: dst → q ≠ dst →
        (runBody s.fs s.handles st p).fs q = none ∨
          isDirAt (runBody s.fs s.handles st p).fs q := by
      intro q hq hqd
      rcases runBody_change s.fs s.handles st p q with h1 | ⟨_, h2, _⟩ | ⟨h3, _⟩
      · rw [h1]
        rcases hanc q hq hqd with h | ⟨w, h⟩
        · exact Or.inl h
        · exact Or.inr ⟨w, by rw [h1]; exact h⟩
      · exact Or.inr ⟨true, h2⟩
      · exact absurd h3 (habove q hq hqd)
    have hwr' : ∀ q n, (q ++ [n]) <+: dst →
        (runBody s.fs s.handles st p).fs (q ++ [n]) = none →
        (runBody s.fs s.handles st p).fs q = none ∨
          (runBody s.fs s.handles st p).fs q = some (.dir true) := by
      intro q n hq hnone
      have hold0 : s.fs (q ++ [n]) = none := by
        rcases runBody_change s.fs s.handles st p (q ++ [n]) with
          h1 | ⟨_, h2, _⟩ | ⟨_, c', r', w', h3, _⟩
        · rw [← h1]; exact hnone
        · rw [h2] at hnone; cases hnone
        · rw [h3] at hnone; cases hnone
      have hq' : q <+: dst := (List.prefix_append q [n]).trans hq
      have hqd : q ≠ dst := by
        intro h0
        have := hq.length_le
        rw [h0] at this
        simp at this
      rcases runBody_change s.fs s.handles st p q with h1 | ⟨_, h2, _⟩ | ⟨h3, _⟩
      · rw [h1]; exact hwr q n hq hold0
      · exact Or.inr h2
      · exact absurd h3 (habove q hq' hqd)
    have htarget' : (runBody s.fs s.handles st p).fs dst = none ∨
        ∃ c r, (runBody s.fs s.handles st p).fs dst = some (.file c r true) := by
      rcases runBody_change s.fs s.handles st p dst with
        h1 | ⟨_, _, h2⟩ | ⟨_, c', r', w', h3, h4⟩
      · rw [h1]; exact htarget
      · exfalso
        by_cases hpd : p.2 = dst
        · rw [hpd] at h2
          exact dir_not_below_self hne h2
        · exact (hfree p hpb hpd).2 (h2.trans (List.dropLast_prefix _))
      · rcases h4 with ⟨_, rfl⟩ | ⟨c0, h4⟩
        · exact Or.inr ⟨c', r', h3⟩
        · rcases htarget with h | ⟨c1, r1, h⟩
          · rw [h] at h4; cases h4
          · rw [h] at h4
            simp only [Option.some.injEq, Entry.file.injEq] at h4
            obtain ⟨_, _, rfl⟩ := h4
            exact Or.inr ⟨c', r', h3⟩
    refine ⟨hanc', hwr', htarget', ?_, ?_⟩
    · intro p' hp' hpd
      show isDirAt (runBody s.fs s.handles st p).fs (Dir dst)
      have hp'' : Worker.busy .creating p' ∈
          pre ++ (runBody s.fs s.handles st p).next :: post := hp'
      simp only [List.mem_append, List.mem_cons] at hp''
      have hkeep : Worker.busy .creating p' ∈ s.workers →
          isDirAt (runBody s.fs s.handles st p).fs (Dir dst) :=
        fun hin => isDirAt_stays _ _ _ _ (hparent p' hin hpd)
      rcases hp'' with hin | hnext | hin
      · exact hkeep (by simp [ht, hin])
      · obtain ⟨rfl, _⟩ := runBody_next _ _ _ _ _ _ hnext.symm
        rcases runBody_to_creating _ _ _ _ _ hnext.symm with ⟨_, hfound, hfs⟩ | ⟨_, hok, hfs⟩
        · rw [hfs]
          rw [hpd] at hfound
          rcases hanc (Dir dst) hdirp hdirne with h | h
          · exact absurd h (Stat_found hfound)
          · exact h
        · rw [hfs, hpd]
          have := mkdirFrom_ok_dir (Dir dst) s.fs [] (hpd ▸ hok) hroot
          simpa [MkdirAll] using this
      · exact hkeep (by simp [ht, hin])
    · intro d hd
      have hd' : d ∈ s.out ++ (runBody s.fs s.handles st p).out := hd
      rcases List.mem_append.mp hd' with hin | hnew
      · exact hquiet d hin
      · rw [runBody_out _ _ _ _ d hnew]
        intro hpd
        have hp := copyInv_unique hmem hdst hc hold hpd
        have hopen : canOpen s.fs p.1 = true := by
          obtain ⟨w, rfl⟩ := hread
          rw [hp]
          simp [canOpen, hc.src_stable]
        have hA : ∀ q, q <+: Dir p.2 → s.fs q = none ∨ isDirAt s.fs q := by
          intro q hq
          rw [hpd] at hq
          refine hanc q (hq.trans hdirp) ?_
          intro h0
          exact dir_not_below_self hne (h0 ▸ hq)
        have hstat : Stat s.fs (Dir p.2) ≠ .otherErr := Stat_not_otherErr _ _ hA
        have hmk : (MkdirAll s.fs (Dir p.2)).2 = true := by
          apply mkdirFrom_succeeds (Dir p.2) s.fs [] hroot
          · simpa using hA
          · intro q n hq hn
            simp only [List.nil_append] at hq
            rw [hpd] at hq
            exact hwr q n (hq.trans hdirp) hn
        have hcr : st = .creating → (Create s.fs p.2).2 = true := by
          intro hst
          subst hst
          have hpar := hparent p hold hpd
          rw [hpd]
          apply Create_succeeds _ _ hne _ htarget
          intro hnone
          have hsplit : Dir dst ++ [dst.getLast hne] = dst :=
            List.dropLast_append_getLast hne
          have := hwr (Dir dst) (dst.getLast hne) ⟨[], by rw [List.append_nil, hsplit]⟩
            (by rw [hsplit]; exact hnone)
          obtain ⟨w, hw⟩ := hpar
          rcases this with h | h
          · rw [hw] at h; cases h
          · exact h
        rw [runBody_quiet _ _ _ _ hopen hstat hmk hcr] at hnew
        cases hnew

theorem readyInv_init (n : Int) (fs : FS) (batch : List (Path × Path)) (dst : Path)
    (h : creatable fs dst = true) : ReadyInv dst (poolInit n fs batch) := by
  simp only [creatable, Bool.and_eq_true, List.all_eq_true, Bool.or_eq_true, beq_iff_eq,
    List.mem_inits] at h
  obtain ⟨⟨h1, h2⟩, h3⟩ := h
  refine ⟨?_, ?_, ?_, ?_, ?_⟩
  · intro q hq hne
    rcases h1 q hq with h | h
    · exact absurd h hne
    · show fs q = none ∨ isDirAt fs q
      simp only [okAbove] at h
      split at h
      · cases h
      · cases hf : fs q with
        | none => exact Or.inl rfl
        | some e =>
          cases e with
          | file c r w => rename_i hno; exact absurd hf (hno c r w)
          | dir w => exact Or.inr ⟨w, hf⟩
  · intro q m hq hnone
    show fs q = none ∨ fs q = some (.dir true)
    have hnone' : fs (q ++ [m]) = none := hnone
    rcases h2 (q ++ [m]) hq with h | h
    · simp at h
    · simp only [okParent, hnone', Dir_append_singleton] at h
      cases hf : fs q with
      | none => exact Or.inl rfl
      | some e =>
        cases e with
        | file c r w => rw [hf] at h; cases h
        | dir w =>
          cases w with
          | true => exact Or.inr rfl
          | false => rw [hf] at h; cases h
  · show fs dst = none ∨ ∃ c r, fs dst = some (.file c r true)
    simp only [okTarget] at h3
    split at h3
    · exact Or.inl ‹_›
    · exact Or.inr ⟨_, _, ‹_›⟩
    · cases h3
  · intro p hp; simp [poolInit] at hp
  · intro d hd; simp [poolInit] at hd

theorem poolReachable_ready {n : Int} {fs0 : FS} {batch : List (Path × Path)}
    {src dst : Path} {c : List Nat} {w0 : Bool} (htree : TreeFS fs0)
    (hmem : (src, dst) ∈ batch) (hsrc : fs0 src = some (.file c true w0))
    (hcreate : creatable fs0 dst = true)
    (hfree : ∀ p ∈ batch, p.2 ≠ dst → ¬ p.2 <+: dst ∧ ¬ dst <+: p.2)
    (hdst : (batch.map Prod.snd).count dst = 1) (hnot : src ∉ batch.map Prod.snd)
    {s : PoolState} (h : PoolReachable (poolInit n fs0 batch) s) :
    CopyInv batch src dst c (.file c true w0) s ∧ ReadyInv dst s := by
  induction h with
  | start =>
    exact ⟨copyInv_init n fs0 batch src dst c _ htree hsrc, readyInv_init n fs0 batch dst hcreate⟩
  | next i _ hstep ih =>
    have hact := poolStep_sound hstep
    exact ⟨copyInv_step hmem hdst hnot ⟨_, _, rfl⟩ ih.1 hact,
      readyInv_step hmem hdst ⟨_, rfl⟩ hfree ih.1 ih.2 hact⟩

/-- C2, as amended: for every batch and every number of workers the pool
always runs to the return of `Wait`, and for every pair `(src, dst)` of the
batch whose source is a readable file, whose destination directory and file
can be created in the filesystem the pool starts on (`creatable`), and which
no other pair of the batch interferes with (no other destination is `dst`,
lies above `dst` or lies below `dst`, and no destination is `src`), no
failure line is ever printed for the pair, and once `Wait` has returned `dst`
is a file with the bytes of `src` and every ancestor of `dst` is a
directory. -/
theorem copy_delivers (n : Int) (fs0 : FS) (batch : List (Path × Path)) (src dst : Path)
    (c : List Nat) (w0 : Bool) (htree : TreeFS fs0) (hmem : (src, dst) ∈ batch)
    (hsrc : fs0 src = some (.file c true w0)) (hcreate : creatable fs0 dst = true)
    (hfree : ∀ p ∈ batch, p.2 ≠ dst → ¬ p.2 <+: dst ∧ ¬ dst <+: p.2)
    (hdst : (batch.map Prod.snd).count dst = 1) (hnot : src ∉ batch.map Prod.snd) :
    ∀ s, PoolReachable (poolInit n fs0 batch) s →
      (s.main ≠ .returned → ∃ i s', poolStep s i = some s') ∧
      (∀ i s', poolStep s i = some s' → poolMeasure s' < poolMeasure s) ∧
      (∀ d ∈ s.out, d.pair ≠ (src, dst)) ∧
      (s.main = .returned →
        hasContent s.fs dst c ∧ ∀ q, q <+: dst → q ≠ dst → isDirAt s.fs q) := by
  intro s hs
  have hp := poolReachable_inv hs
  obtain ⟨hc, hr⟩ := poolReachable_ready htree hmem hsrc hcreate hfree hdst hnot hs
  have hout : ∀ d ∈ s.out, d.pair ≠ (src, dst) := by
    intro d hd h0
    exact hr.quiet d hd (by rw [h0])
  refine ⟨pool_progress hp, fun i s' h => poolMeasure_step (poolStep_sound h), hout, ?_⟩
  intro hm
  have hw := hp.returned hm
  have hq := hp.closed_queue (hp.closed_iff.mpr (Or.inr hm))
  have hacc := hc.account (fun q => q == (src, dst))
  have hb : 0 < batch.countP (fun q => q == (src, dst)) := countP_pos_of_mem hmem (by simp)
  have ho : (s.out.map Diag.pair).countP (fun q => q == (src, dst)) = 0 := by
    rw [List.countP_eq_zero]
    intro q hq'
    obtain ⟨d, hd, rfl⟩ := List.mem_map.mp hq'
    simpa using hout d hd
  rw [hw, hq, ho] at hacc
  simp only [inflight, List.flatMap_nil, List.countP_nil] at hacc
  have hf : 0 < s.finished.countP (fun q => q == (src, dst)) := by omega
  obtain ⟨q, hqf, hqe⟩ := List.countP_pos_iff.mp hf
  have hqe : q = (src, dst) := by simpa using hqe
  have hcont := hc.done q hqf (by rw [hqe])
  refine ⟨hcont, ?_⟩
  obtain ⟨r, w, hfile⟩ := hcont
  exact tree_ancestors hc.tree dst (by rw [hfile]; simp)

/-- Witness for `copy_delivers`: the copy scenario of the specification.  With
two workers, after `Wait` has returned nothing has been printed,
`out/sub/y.txt` holds the bytes of `root/y.txt`, and `out` and `out/sub` are
directories. -/
theorem copy_delivers_witness :
    (poolRunFirst 100 (poolInit 2 specFS specBatch)).main = .returned ∧
    (∀ d ∈ (poolRunFirst 100 (poolInit 2 specFS specBatch)).out,
      d.pair ≠ (["root", "y.txt"], ["out", "sub", "y.txt"])) ∧
    hasContent (poolRunFirst 100 (poolInit 2 specFS specBatch)).fs ["out", "sub", "y.txt"]
      [121, 121] ∧
    isDirAt (poolRunFirst 100 (poolInit 2 specFS specBatch)).fs ["out", "sub"] ∧
    isDirAt (poolRunFirst 100 (poolInit 2 specFS specBatch)).fs ["out"] :=
  have h := (copy_delivers 2 specFS specBatch ["root", "y.txt"] ["out", "sub", "y.txt"]
    [121, 121] true (treeFS_fsOf specEntries (by decide)) (by decide) (by decide) (by decide)
    (by decide) (by decide) (by decide) _
    (poolReachable_runFirst 100 PoolReachable.start)).2.2
  have h2 := h.2 (by decide)
  ⟨by decide, h.1, h2.1, h2.2 ["out", "sub"] ⟨["y.txt"], rfl⟩ (by decide),
    h2.2 ["out"] ⟨["sub", "y.txt"], rfl⟩ (by decide)⟩

/-- Counterexample to C2 as stated, in three runs on the filesystem
`/{in/{a, b}, out/}`; in each the source of the pair is a readable file, its
destination directory and file can be created in the filesystem the pool
starts on, and `Wait` returns.
* Two pairs with the same destination, `{(in/a, out/d), (in/b, out/d)}`, one
  worker: nothing is printed and `out/d` does not hold the bytes of `in/a`.
* A pair that writes the source of another, `{(in/b, out/d), (in/a, in/b)}`,
  two workers, `os.Create("in/b")` of the second running before the first
  reads `in/b`: nothing is printed and `out/d` is empty, which is the content
  of `in/b` neither before nor after the run.
* A destination that is the directory of another,
  `{(in/a, out/x), (in/b, out/x/y)}`, two workers, `os.MkdirAll("out/x")` of
  the second running before `os.Create("out/x")` of the first: `out/x` is a
  directory and not a file with the bytes of `in/a`. -/
theorem copy_conflicts :
    (∃ s, PoolReachable (poolInit 1 (fsOf dupEntries) dupBatch) s ∧ s.main = .returned ∧
      s.out = [] ∧ (["in", "a"], ["out", "d"]) ∈ dupBatch ∧
      fsOf dupEntries ["in", "a"] = some (.file [1] true true) ∧
      creatable (fsOf dupEntries) ["out", "d"] = true ∧
      ¬ hasContent s.fs ["out", "d"] [1]) ∧
    (∃ s, PoolReachable (poolInit 2 (fsOf dupEntries) overwriteBatch) s ∧
      s.main = .returned ∧ s.out = [] ∧ (["in", "b"], ["out", "d"]) ∈ overwriteBatch ∧
      fsOf dupEntries ["in", "b"] = some (.file [2] true true) ∧
      creatable (fsOf dupEntries) ["out", "d"] = true ∧
      (overwriteBatch.map Prod.snd).count ["out", "d"] = 1 ∧
      (∀ p ∈ overwriteBatch, p.2 ≠ ["out", "d"] →
        ¬ p.2 <+: ["out", "d"] ∧ ¬ ["out", "d"] <+: p.2) ∧
      s.fs ["in", "b"] = some (.file [1] true true) ∧
      s.fs ["out", "d"] = some (.file [] true true)) ∧
    (∃ s, PoolReachable (poolInit 2 (fsOf dupEntries) nestedBatch) s ∧
      s.main = .returned ∧ (["in", "a"], ["out", "x"]) ∈ nestedBatch ∧
      fsOf dupEntries ["in", "a"] = some (.file [1] true true) ∧
      creatable (fsOf dupEntries) ["out", "x"] = true ∧
      (nestedBatch.map Prod.snd).count ["out", "x"] = 1 ∧
      ["in", "a"] ∉ nestedBatch.map Prod.snd ∧
      s.fs ["out", "x"] = some (.dir true)) := by
  refine ⟨?_, ?_, ?_⟩
  · refine ⟨poolRunFirst 100 (poolInit 1 (fsOf dupEntries) dupBatch),
      poolReachable_runFirst 100 PoolReachable.start, by decide, by decide, by decide,
      by decide, by decide, ?_⟩
    have h : (poolRunFirst 100 (poolInit 1 (fsOf dupEntries) dupBatch)).fs ["out", "d"] =
        some (.file [2] true true) := by decide
    rintro ⟨r, w, h'⟩
    rw [h] at h'
    cases h'
  · exact ⟨poolRunFirst 100 (poolRun (poolInit 2 (fsOf dupEntries) overwriteBatch)
        [0, 0, 0, 0, 1, 2, 2, 2, 2, 1, 1, 1, 1, 1, 1]),
      poolReachable_runFirst 100 (poolReachable_run _ PoolReachable.start), by decide,
      by decide, by decide, by decide, by decide, by decide, by decide, by decide,
      by decide⟩
  · exact ⟨poolRunFirst 100 (poolRun (poolInit 2 (fsOf dupEntries) nestedBatch)
        [0, 0, 0, 0, 1, 2, 2, 2, 2, 1, 1, 1]),
      poolReachable_runFirst 100 (poolReachable_run _ PoolReachable.start), by decide,
      by decide, by decide, by decide, by decide, by decide, by decide⟩

/-- C9 on a failing input: the pair `(in/a, out)` where `out` is an existing
directory.  `os.Open` succeeds, `os.Create` fails, the worker prints the line
and goes on to the next receive, and after `Wait` has returned the handle on
`in/a` is still open. -/
theorem source_handle_left_open :
    (poolRunFirst 100 (poolInit 1 (fsOf dupEntries) leakBatch)).main = .returned ∧
    (poolRunFirst 100 (poolInit 1 (fsOf dupEntries) leakBatch)).out =
      [.createErr (["in", "a"], ["out"])] ∧
    (poolRunFirst 100 (poolInit 1 (fsOf dupEntries) leakBatch)).handles = [["in", "a"]] := by
  decide

/-- C5 on a failing input: the pair `(in, out/copy)` where `in` is a
directory.  `os.Open` and `os.Create` succeed, `io.Copy` fails (its result is
dropped), and after `Wait` has returned nothing has been printed while
`out/copy` is an empty file. -/
theorem copy_failure_not_reported :
    (poolRun (poolInit 1 (fsOf dupEntries) dirBatch) [0, 0, 0, 1, 1, 1, 1]).workers =
      [.busy .copying (["in"], ["out", "copy"])] ∧
    (ioCopy (poolRun (poolInit 1 (fsOf dupEntries) dirBatch) [0, 0, 0, 1, 1, 1, 1]).fs
      ["out", "copy"] ["in"]).2 = false ∧
    (poolRunFirst 100 (poolInit 1 (fsOf dupEntries) dirBatch)).main = .returned ∧
    (poolRunFirst 100 (poolInit 1 (fsOf dupEntries) dirBatch)).out = [] ∧
    (poolRunFirst 100 (poolInit 1 (fsOf dupEntries) dirBatch)).finished =
      [(["in"], ["out", "copy"])] ∧
    (poolRunFirst 100 (poolInit 1 (fsOf dupEntries) dirBatch)).fs ["out", "copy"] =
      some (.file [] true true) := by
  decide

/-- C10 on a failing input: in the project `/proj` the file
`/proj/.bronotes.txt` is neither `/proj/.bro` nor below `/proj/.bro/`, yet the
prefix test of `Add` holds for it and `Add` passes no pair for it to the
copier, while `/proj/main.go` is staged. -/
theorem add_skips_bro_named_file :
    filepathJoin ["/proj", ".bro"] = "/proj/.bro" ∧
    HasPrefix "/proj/.bronotes.txt" (filepathJoin ["/proj", ".bro"]) = true ∧
    "/proj/.bronotes.txt" ≠ "/proj/.bro" ∧
    HasPrefix "/proj/.bronotes.txt" "/proj/.bro/" = false ∧
    Add "/proj" ["/proj/.bronotes.txt", "/proj/main.go", "/proj/.bro/bro.json"] =
      [("/proj/main.go", "/proj/.bro/_stage/main.go")] := by
  decide

theorem poolStep_worker_at {s : PoolState} {pre post : List Worker} {w : Worker}
    (ht : s.workers = pre ++ w :: post) :
    s.workers.drop pre.length = w :: post ∧ s.workers.take pre.length = pre := by
  constructor
  · rw [ht]; simp
  · rw [ht]; simp

theorem poolStep_complete {s s' : PoolState} (h : PoolAct s s') :
    ∃ i, poolStep s i = some s' := by
  cases h with
  | add hm => exact ⟨0, by simp only [poolStep, poolStepMain, Start, Wait, hm]⟩
  | go k hm => exact ⟨0, by simp only [poolStep, poolStepMain, Start, Wait, hm]⟩
  | started hm => exact ⟨0, by simp only [poolStep, poolStepMain, Start, Wait, hm]⟩
  | close hm hq => exact ⟨0, by simp only [poolStep, poolStepMain, Start, Wait, hm, hq]⟩
  | ret hm hz => exact ⟨0, by simp only [poolStep, poolStepMain, Start, Wait, hm, hz, if_true]⟩
  | exit pre post ht hc =>
    obtain ⟨hd, htk⟩ := poolStep_worker_at ht
    exact ⟨pre.length + 1, by simp only [poolStep, runCopier, hd, htk, hc, if_true]⟩
  | take pre post pair rest ht hc hm hq =>
    obtain ⟨hd, htk⟩ := poolStep_worker_at ht
    refine ⟨pre.length + 1, ?_⟩
    simp only [poolStep, runCopier, hd, htk, hc, hm, hq]
    rfl
  | work pre post st pair ht =>
    obtain ⟨hd, htk⟩ := poolStep_worker_at ht
    exact ⟨pre.length + 1, by simp only [poolStep, runCopier, hd, htk]⟩

theorem mkdirFrom_absent (q : Path) :
    ∀ (names : List String) (fs : FS) (base : Path), fs q = none →
      ¬ q <+: base ++ names → (mkdirFrom fs base names).1 q = none
  | [], fs, base, h, _ => h
  | n :: rest, fs, base, h, hp => by
    have hp' : ¬ q <+: (base ++ [n]) ++ rest := by simpa using hp
    have hq : q ≠ base ++ [n] := by
      intro hq
      apply hp
      rw [hq]
      exact ⟨rest, by simp⟩
    simp only [mkdirFrom]
    split
    · exact mkdirFrom_absent q rest fs _ h hp'
    · exact h
    · split
      · exact mkdirFrom_absent q rest _ _ (by rw [set_other _ _ hq]; exact h) hp'
      · exact h

theorem runBody_absent (fs : FS) (handles : List Path) (st : Stage) (pair : Path × Path)
    {q : Path} (hq : fs q = none) (hp : ¬ q <+: pair.2) :
    (runBody fs handles st pair).fs q = none := by
  have hne : q ≠ pair.2 := fun h => hp (h ▸ List.prefix_refl _)
  cases st
  · simp only [runBody]; split <;> exact hq
  · simp only [runBody]; split <;> exact hq
  · have hd : ¬ q <+: [] ++ Dir pair.2 := by
      intro h
      exact hp ((List.nil_append _ ▸ h).trans (List.dropLast_prefix _))
    simp only [runBody]
    split <;> exact mkdirFrom_absent q _ fs [] hq hd
  · simp only [runBody]
    split
    · show (Create fs pair.2).1 q = none
      rw [Create_keeps fs hne]; exact hq
    · exact hq
  · show (ioCopy fs pair.2 pair.1).1 q = none
    rw [ioCopy_keeps fs hne]; exact hq
  · exact hq
  · exact hq

theorem runBody_missing (fs : FS) (handles : List Path) (pair : Path × Path)
    (h : fs pair.1 = none) :
    runBody fs handles .opening pair = ⟨.idle, fs, handles, [.openErr pair], []⟩ := by
  simp [runBody, canOpen, h]

theorem absentInv_init (n : Int) (fs : FS) (batch : List (Path × Path)) (src : Path)
    (h : fs src = none) : AbsentInv batch src (poolInit n fs batch) := by
  refine ⟨?_, h, ?_, ?_⟩
  · intro p hp
    simpa [poolInit, inflight] using hp
  · intro st p hp; simp [poolInit] at hp
  · intro p hp; simp [poolInit] at hp

theorem absentInv_step {batch : List (Path × Path)} {src : Path} {s s' : PoolState}
    (hclean : ∀ p ∈ batch, p.1 = src ∨ ¬ src <+: p.2)
    (hs : AbsentInv batch src s) (h : PoolAct s s') : AbsentInv batch src s' := by
  obtain ⟨hmem, habs, hstuck, hunf⟩ := hs
  cases h with
  | add hm => exact ⟨hmem, habs, hstuck, hunf⟩
  | go k hm =>
    refine ⟨?_, habs, ?_, hunf⟩
    · intro p hp
      apply hmem
      simpa [inflight_append, inflight, Worker.task] using hp
    · intro st p hp
      simp only [List.mem_append, List.mem_singleton] at hp
      rcases hp with hp | hp
      · exact hstuck st p hp
      · cases hp
  | started hm => exact ⟨hmem, habs, hstuck, hunf⟩
  | close hm hq => exact ⟨hmem, habs, hstuck, hunf⟩
  | ret hm hz => exact ⟨hmem, habs, hstuck, hunf⟩
  | exit pre post ht hc =>
    refine ⟨?_, habs, ?_, hunf⟩
    · intro p hp
      apply hmem
      rw [ht, inflight_split, task_idle]
      simpa [inflight_append] using hp
    · intro st p hp
      refine hstuck st p ?_
      simp only [List.mem_append] at hp
      simp only [ht, List.mem_append, List.mem_cons]
      tauto
  | take pre post pair rest ht hc hm hq =>
    refine ⟨?_, habs, ?_, hunf⟩
    · intro p hp
      apply hmem
      rw [ht, hq, inflight_split, task_idle]
      simp only [inflight_split, task_busy, List.mem_append, List.mem_cons,
        List.not_mem_nil, or_false] at hp
      simp only [List.mem_cons, List.mem_append, List.nil_append]
      tauto
    · intro st p hp hsrc
      simp only [List.mem_append, List.mem_cons] at hp
      rcases hp with hp | hp | hp
      · exact hstuck st p (by simp [ht, hp]) hsrc
      · simp only [Worker.busy.injEq] at hp
        exact hp.1
      · exact hstuck st p (by simp [ht, hp]) hsrc
  | work pre post st p ht =>
    have hold : Worker.busy st p ∈ s.workers := by simp [ht]
    have hpb : p ∈ batch := hmem p (Or.inr (mem_inflight hold))
    have hfs : (runBody s.fs s.handles st p).fs src = none := by
      rcases hclean p hpb with h1 | h2
      · have := hstuck st p hold h1
        subst this
        rw [runBody_missing _ _ _ (h1 ▸ habs)]
        exact habs
      · exact runBody_absent _ _ _ _ habs h2
    refine ⟨?_, hfs, ?_, ?_⟩
    · intro q hq
      show q ∈ batch
      have hq' : q ∈ s.queue ∨
          q ∈ inflight (pre ++ (runBody s.fs s.handles st p).next :: post) := hq
      rcases hq' with hq' | hq'
      · exact hmem q (Or.inl hq')
      · rw [inflight_split] at hq'
        simp only [List.mem_append] at hq'
        rcases hq' with hq' | hq' | hq'
        · exact hmem q (Or.inr (by rw [ht, inflight_split]; simp [hq']))
        · cases hn : (runBody s.fs s.handles st p).next with
          | idle => rw [hn] at hq'; simp [Worker.task] at hq'
          | busy st' p' =>
            rw [hn, task_busy, List.mem_singleton] at hq'
            rw [hq', (runBody_next _ _ _ _ _ _ hn).1]
            exact hpb
        · exact hmem q (Or.inr (by rw [ht, inflight_split]; simp [hq']))
    · intro st' p' hp' hsrc
      have hp'' : Worker.busy st' p' ∈ pre ++ (runBody s.fs s.handles st p).next :: post :=
        hp'
      simp only [List.mem_append, List.mem_cons] at hp''
      rcases hp'' with h | h | h
      · exact hstuck st' p' (by simp [ht, h]) hsrc
      · obtain ⟨rfl, _⟩ := runBody_next _ _ _ _ _ _ h.symm
        have := hstuck st p' hold hsrc
        subst this
        rw [runBody_missing _ _ _ (hsrc ▸ habs)] at h
        cases h
      · exact hstuck st' p' (by simp [ht, h]) hsrc
    · intro p' hp'
      have hp'' : p' ∈ s.finished ++ (runBody s.fs s.handles st p).finished := hp'
      rcases List.mem_append.mp hp'' with h | h
      · exact hunf p' h
      · obtain ⟨rfl, rfl, _⟩ := runBody_finished _ _ _ _ _ h
        intro hsrc
        have := hstuck _ p' hold hsrc
        cases this

theorem forall₂_split {R : Worker → Worker → Prop} :
    ∀ (pre : List Worker) {w : Worker} {post l : List Worker},
      List.Forall₂ R (pre ++ w :: post) l →
      ∃ pre' w' post', l = pre' ++ w' :: post' ∧ List.Forall₂ R pre pre' ∧ R w w' ∧
        List.Forall₂ R post post'
  | [], w, post, l, h => by
    obtain ⟨b, u, hr, hrest, rfl⟩ := List.forall₂_cons_left_iff.mp h
    exact ⟨[], b, u, rfl, List.Forall₂.nil, hr, hrest⟩
  | a :: pre, w, post, l, h => by
    obtain ⟨b, u, hr, hrest, rfl⟩ := List.forall₂_cons_left_iff.mp h
    obtain ⟨pre', w', post', rfl, h1, h2, h3⟩ := forall₂_split pre hrest
    exact ⟨b :: pre', w', post', rfl, List.Forall₂.cons hr h1, h2, h3⟩

theorem forall₂_join {R : Worker → Worker → Prop} :
    ∀ {pre pre' : List Worker} {post post' : List Worker},
      List.Forall₂ R pre pre' → List.Forall₂ R post post' →
      List.Forall₂ R (pre ++ post) (pre' ++ post')
  | _, _, _, _, List.Forall₂.nil, h => h
  | _, _, _, _, List.Forall₂.cons hr h1, h => List.Forall₂.cons hr (forall₂_join h1 h)

theorem lagRel_refl (τ : Path × Path) (w : Worker) : lagRel τ w w := Or.inl rfl

theorem sim_init (n : Int) (fs : FS) (pre post : List (Path × Path)) (τ : Path × Path) :
    Sim τ (poolInit n fs (pre ++ τ :: post)) (poolInit n fs (pre ++ post)) :=
  ⟨rfl, rfl, rfl, rfl, rfl, rfl, Or.inr ⟨pre, post, rfl, rfl⟩, List.Forall₂.nil⟩

theorem sim_step {τ : Path × Path} {s s' t : PoolState} (habs : s.fs τ.1 = none)
    (hR : Sim τ s t) (h : PoolAct s s') :
    ∃ t', (t' = t ∨ PoolAct t t') ∧ Sim τ s' t' := by
  obtain ⟨tc, tq, tw, tm, tfs, tout, th, tf⟩ := t
  obtain ⟨hc, hm, hfs, hh, hf, hout, hq, hw⟩ := hR
  simp only at hc hm hfs hh hf hout hq hw
  subst hc hm hfs hh hf
  cases h with
  | add hm =>
    exact ⟨_, Or.inr (PoolAct.add _ hm), ⟨rfl, rfl, rfl, rfl, rfl, hout, hq, hw⟩⟩
  | go k hm =>
    refine ⟨_, Or.inr (PoolAct.go _ k hm), ⟨rfl, rfl, rfl, rfl, rfl, hout, hq, ?_⟩⟩
    exact forall₂_join hw (List.Forall₂.cons (lagRel_refl _ _) List.Forall₂.nil)
  | started hm =>
    exact ⟨_, Or.inr (PoolAct.started _ hm), ⟨rfl, rfl, rfl, rfl, rfl, hout, hq, hw⟩⟩
  | close hm hq' =>
    have htq : tq = [] := by
      rcases hq with h | ⟨q, post, h1, _⟩
      · rw [h, hq']
      · rw [hq'] at h1; simp at h1
    exact ⟨_, Or.inr (PoolAct.close _ hm htq), ⟨rfl, rfl, rfl, rfl, rfl, hout, hq, hw⟩⟩
  | ret hm hz =>
    exact ⟨_, Or.inr (PoolAct.ret _ hm hz), ⟨rfl, rfl, rfl, rfl, rfl, hout, hq, hw⟩⟩
  | exit pre post ht hc =>
    rw [ht] at hw
    obtain ⟨pre', w', post', rfl, h1, h2, h3⟩ := forall₂_split pre hw
    have hw' : w' = .idle := by
      rcases h2 with h | ⟨h, _⟩
      · exact h.symm
      · cases h
    subst hw'
    exact ⟨_, Or.inr (PoolAct.exit _ pre' post' rfl hc),
      ⟨rfl, rfl, rfl, rfl, rfl, hout, hq, forall₂_join h1 h3⟩⟩
  | take pre post pair rest ht hc hm hq' =>
    rw [ht] at hw
    obtain ⟨pre', w', post', rfl, h1, h2, h3⟩ := forall₂_split pre hw
    have hw' : w' = .idle := by
      rcases h2 with h | ⟨h, _⟩
      · exact h.symm
      · cases h
    subst hw'
    have mirror : tq = pair :: rest →
        ∃ t', (t' = (⟨s.c, tq, pre' ++ Worker.idle :: post', s.main, s.fs, tout, s.handles,
            s.finished⟩ : PoolState) ∨
          PoolAct ⟨s.c, tq, pre' ++ Worker.idle :: post', s.main, s.fs, tout, s.handles,
            s.finished⟩ t') ∧
          Sim τ { s with queue := rest, workers := pre ++ .busy .opening pair :: post } t' := by
      intro htq
      refine ⟨_, Or.inr (PoolAct.take _ pre' post' pair rest rfl hc hm htq),
        ⟨rfl, rfl, rfl, rfl, rfl, hout, Or.inl rfl, ?_⟩⟩
      exact forall₂_join h1 (List.Forall₂.cons (lagRel_refl _ _) h3)
    rcases hq with h | ⟨q, post0, hsq, htq⟩
    · exact mirror (h.trans hq')
    · rw [hq'] at hsq
      cases q with
      | nil =>
        simp only [List.nil_append, List.cons.injEq] at hsq
        obtain ⟨rfl, rfl⟩ := hsq
        refine ⟨_, Or.inl rfl, ⟨rfl, rfl, rfl, rfl, rfl, hout, Or.inl ?_, ?_⟩⟩
        · simpa using htq
        · exact forall₂_join h1 (List.Forall₂.cons (Or.inr ⟨rfl, rfl⟩) h3)
      | cons x q' =>
        simp only [List.cons_append, List.cons.injEq] at hsq
        obtain ⟨rfl, rfl⟩ := hsq
        refine ⟨_, Or.inr (PoolAct.take _ pre' post' pair (q' ++ post0) rfl hc hm
          (by simpa using htq)),
          ⟨rfl, rfl, rfl, rfl, rfl, hout, Or.inr ⟨q', post0, rfl, rfl⟩, ?_⟩⟩
        exact forall₂_join h1 (List.Forall₂.cons (lagRel_refl _ _) h3)
  | work pre post st p ht =>
    rw [ht] at hw
    obtain ⟨pre', w', post', rfl, h1, h2, h3⟩ := forall₂_split pre hw
    rcases h2 with h | ⟨h, h'⟩
    · subst h
      refine ⟨_, Or.inr (PoolAct.work _ pre' post' st p rfl),
        ⟨rfl, rfl, rfl, rfl, rfl, ?_, hq, ?_⟩⟩
      · simp only [List.filter_append, hout]
      · exact forall₂_join h1 (List.Forall₂.cons (lagRel_refl _ _) h3)
    · simp only [Worker.busy.injEq] at h
      obtain ⟨rfl, rfl⟩ := h
      subst h'
      have hr := runBody_missing s.fs s.handles p habs
      refine ⟨_, Or.inl rfl, ⟨rfl, rfl, ?_, ?_, ?_, ?_, hq, ?_⟩⟩
      · simp only [hr]
      · simp only [hr]
      · simp only [hr, List.append_nil]
      · simp only [hr, List.filter_append, hout]
        simp
      · simp only [hr]
        exact forall₂_join h1 (List.Forall₂.cons (lagRel_refl _ _) h3)


theorem poolReachable_sim {n : Int} {fs0 : FS} {pre post : List (Path × Path)}
    {src dst : Path} (habs : fs0 src = none)
    (hclean : ∀ p ∈ pre ++ (src, dst) :: post, p.1 = src ∨ ¬ src <+: p.2) {s : PoolState}
    (h : PoolReachable (poolInit n fs0 (pre ++ (src, dst) :: post)) s) :
    AbsentInv (pre ++ (src, dst) :: post) src s ∧
      ∃ t, PoolReachable (poolInit n fs0 (pre ++ post)) t ∧ Sim (src, dst) s t := by
  induction h with
  | start =>
    exact ⟨absentInv_init n fs0 _ src habs, _, PoolReachable.start, sim_init n fs0 pre post _⟩
  | next i _ hstep ih =>
    obtain ⟨hinv, t, ht, hsim⟩ := ih
    have hact := poolStep_sound hstep
    refine ⟨absentInv_step hclean hinv hact, ?_⟩
    obtain ⟨t', ht', hsim'⟩ := sim_step (τ := (src, dst)) hinv.absent hsim hact
    rcases ht' with rfl | ht'
    · exact ⟨_, ht, hsim'⟩
    · obtain ⟨j, hj⟩ := poolStep_complete ht'
      exact ⟨t', PoolReachable.next j ht hj, hsim'⟩

/-- C4: a pair whose source does not exist is isolated.  For every batch that
holds the pair `(src, dst)`, where nothing is at `src` and no other pair of
the batch creates anything at `src`, the pool always runs to the return of
`Wait`; nothing is ever at `src`; a worker that holds the pair stays at
`os.Open`, so `os.Create` is never called for it and the pair is never
completed; the action of that worker prints the line about opening and takes
the worker back to its receive, leaving the filesystem, the open files and
every other worker as they were; and every state the pool reaches is matched
by a state the pool reaches on the batch without the pair, with the same
filesystem, the same open files, the same completed pairs, the caller at the
same place and the same lines printed apart from those about opening `src`. -/
theorem missing_source_isolated (n : Int) (fs0 : FS) (pre post : List (Path × Path))
    (src dst : Path) (habs : fs0 src = none)
    (hclean : ∀ p ∈ pre ++ (src, dst) :: post, p.1 = src ∨ ¬ src <+: p.2) :
    ∀ s, PoolReachable (poolInit n fs0 (pre ++ (src, dst) :: post)) s →
      (s.main ≠ .returned → ∃ i s', poolStep s i = some s') ∧
      (∀ i s', poolStep s i = some s' → poolMeasure s' < poolMeasure s) ∧
      s.fs src = none ∧
      (∀ st, Worker.busy st (src, dst) ∈ s.workers → st = .opening) ∧
      (src, dst) ∉ s.finished ∧
      (∀ w1 w2, s.workers = w1 ++ .busy .opening (src, dst) :: w2 →
        poolStep s (w1.length + 1) =
          some { s with out := s.out ++ [.openErr (src, dst)],
                        workers := w1 ++ .idle :: w2 }) ∧
      ∃ t, PoolReachable (poolInit n fs0 (pre ++ post)) t ∧ t.main = s.main ∧
        t.fs = s.fs ∧ t.handles = s.handles ∧ t.finished = s.finished ∧
        t.out.filter (fun d => d != .openErr (src, dst)) =
          s.out.filter (fun d => d != .openErr (src, dst)) := by
  intro s hs
  obtain ⟨hinv, t, ht, hsim⟩ := poolReachable_sim habs hclean hs
  refine ⟨pool_progress (poolReachable_inv hs),
    fun i s' h => poolMeasure_step (poolStep_sound h), hinv.absent,
    fun st h => hinv.stuck st _ h rfl, fun h => hinv.unfinished _ h rfl, ?_,
    t, ht, hsim.main, hsim.fs, hsim.handles, hsim.finished, hsim.out⟩
  intro w1 w2 hw
  obtain ⟨hd, htk⟩ := poolStep_worker_at hw
  simp only [poolStep, runCopier, hd, htk,
    runBody_missing s.fs s.handles (src, dst) hinv.absent, List.append_nil]


/-- Witness for `missing_source_isolated`: the batch
`{(in/gone, out/gone), (in/a, out/a)}` with two workers, where `in/gone` does
not exist.  `Wait` returns, `out/gone` is not created, `out/a` holds the bytes
of `in/a`, and the pool without the first pair can end with the same
filesystem. -/
theorem missing_source_isolated_witness :
    (poolRunFirst 100 (poolInit 2 (fsOf lonelyEntries) missingBatch)).main = .returned ∧
    (poolRunFirst 100 (poolInit 2 (fsOf lonelyEntries) missingBatch)).fs ["out", "gone"] =
      none ∧
    (poolRunFirst 100 (poolInit 2 (fsOf lonelyEntries) missingBatch)).fs ["out", "a"] =
      some (.file [1] true true) ∧
    (poolRunFirst 100 (poolInit 2 (fsOf lonelyEntries) missingBatch)).out =
      [.openErr (["in", "gone"], ["out", "gone"])] ∧
    ∃ t, PoolReachable (poolInit 2 (fsOf lonelyEntries) [(["in", "a"], ["out", "a"])]) t ∧
      t.main = .returned ∧
      t.fs = (poolRunFirst 100 (poolInit 2 (fsOf lonelyEntries) missingBatch)).fs :=
  have h := (missing_source_isolated 2 (fsOf lonelyEntries) [] [(["in", "a"], ["out", "a"])]
    ["in", "gone"] ["out", "gone"] (by decide) (by decide) _
    (poolReachable_runFirst 100 PoolReachable.start)).2.2.2.2.2.2
  ⟨by decide, by decide, by decide, by decide,
    h.elim fun t ht => ⟨t, ht.1, ht.2.1.trans (by decide), ht.2.2.1⟩⟩

end Bro
